import Mathlib

/-!
Verification development for the Golang order-matching system.

The in-memory order book (internal/service/matching.go) stores, per symbol
and side, a Go slice of pointers to price-level entries, and each entry
stores a Go slice of pointers to orders.  The matching loops iterate over
slice headers captured at loop start while removeFromOrderBook shifts the
shared backing arrays in place, so the embedding keeps every backing array
together with its live length: cells beyond the live length retain their
old (stale) values exactly as in Go, and captured headers are modelled by
the captured length, re-reading cells from the current backing each
iteration.  Pointer identity of orders is their order id (ids are issued by
a fresh counter, modelling uuid truncation, which the source relies on
being collision-free); the heap maps ids to the current order object.
Prices and quantities are float64 in Go and are modelled as integers: the
only operations the service applies to them are subtraction, minimum and
order comparisons, on which the embedding is exact, and every value in the
concrete scenarios is a small integer on which float64 arithmetic is also
exact.
time.Now() is modelled by a tick counter.  The MySQL store is modelled by
committed rows plus a staged transaction copy; every store write consumes
one index of an injectable failure schedule (failAt), modelling a store
operation that reports an error.
-/

set_option synthInstance.maxSize 4000

namespace OMS

inductive Side
  | buy
  | sell
deriving DecidableEq, Repr, Inhabited

inductive OrderType
  | limit
  | market
deriving DecidableEq, Repr, Inhabited

/-- Order status; opened models the source constant StatusOpen ("open"). -/
inductive OrderStatus
  | opened
  | filled
  | canceled
deriving DecidableEq, Repr, Inhabited

/-- Models sql.NullFloat64: a float64 together with a validity flag. -/
structure NullFloat64 where
  float64 : Int
  valid : Bool
deriving DecidableEq, Repr, Inhabited

/-- Models models.Order (fields used by the service and repository). -/
structure Order where
  orderID : Nat
  symbol : String
  side : Side
  otype : OrderType
  price : NullFloat64
  initialQuantity : Int
  remainingQuantity : Int
  status : OrderStatus
  createdAt : Nat
deriving DecidableEq, Repr, Inhabited

/-- Models models.Trade. -/
structure Trade where
  tradeID : Nat
  symbol : String
  buyOrderID : Nat
  sellOrderID : Nat
  price : Int
  quantity : Int
  createdAt : Nat
deriving DecidableEq, Repr, Inhabited

/-- Models a models.OrderBookEntry object: the price plus the Go slice of
order pointers, kept as the full backing array and the live length. -/
structure Level where
  price : Int
  ordersBacking : List Nat
  ordersLen : Nat
deriving DecidableEq, Repr, Inhabited

/-- Models the Go slice value side[symbol] of type list of entry pointers:
backing array of level ids plus live length. -/
structure SideLevels where
  levelsBacking : List Nat
  levelsLen : Nat
deriving DecidableEq, Repr, Inhabited

/-- Committed database state: the orders and trades tables. -/
structure DB where
  orders : List Order
  trades : List Trade
deriving DecidableEq, Repr, Inhabited

/-- Error values returned by the service (models package errors; persistence
stands for any error surfaced by a store operation). -/
inductive Err
  | invalidOrder
  | orderNotFound
  | orderNotOpen
  | persistence
deriving DecidableEq, Repr, Inhabited

/-- The full state of the service process: order/level object heaps, the two
side maps of the in-memory book, the committed database, the id and clock
counters, and the injected persistence-failure schedule. -/
structure EngineState where
  heap : Nat → Option Order
  levels : List Level
  bids : List (String × SideLevels)
  asks : List (String × SideLevels)
  db : DB
  nextOrderID : Nat
  nextTradeID : Nat
  now : Nat
  opCount : Nat
  failAt : Option Nat

/-- Read one cell of a backing array (cells are always read in bounds on
states the program reaches). -/
def cellGet (l : List Nat) (i : Nat) : Nat := l.getD i 0

/-- Models append(s[:i], s[i+1:]...) on a slice of live length over this
backing array: cells i .. live-2 take the values of cells i+1 .. live-1 and
every other cell, including the stale tail, is unchanged. -/
def shiftRemove (backing : List α) (live i : Nat) : List α :=
  backing.take i ++ ((backing.drop (i + 1)).take (live - i - 1)) ++ backing.drop (live - 1)

/-- Map read side[symbol] returning the exists flag. -/
def findSide (m : List (String × SideLevels)) (sym : String) : Option SideLevels :=
  (m.find? (fun p => p.1 == sym)).map (fun p => p.2)

/-- Map read defaulting to the empty slice (entries, exists pattern with
entries initialised empty when absent). -/
def getSide (m : List (String × SideLevels)) (sym : String) : SideLevels :=
  (findSide m sym).getD ⟨[], 0⟩

/-- Map write side[symbol] = v: replace the entry with this key, or append
a new entry when the key is absent. -/
def setSide : List (String × SideLevels) → String → SideLevels → List (String × SideLevels)
  | [], sym, v => [(sym, v)]
  | p :: m, sym, v => if p.1 == sym then (sym, v) :: m else p :: setSide m sym v

/-- Mutation through an order pointer: the object with this id now holds o. -/
def heapSet (heap : Nat → Option Order) (o : Order) : Nat → Option Order :=
  fun i => if i = o.orderID then some o else heap i

/-- Dereference an order pointer. -/
def heapGet (heap : Nat → Option Order) (oid : Nat) : Order :=
  (heap oid).getD default

/-- Dereference a level pointer. -/
def levelGet (levels : List Level) (lid : Nat) : Level :=
  levels.getD lid default

/-- Models func min(a, b float64) of matching.go. -/
def fmin (a b : Int) : Int := if a < b then a else b

/-- One store operation fails iff the schedule names the current index. -/
def opFails (opCount : Nat) (failAt : Option Nat) : Bool := failAt == some opCount

/-- INSERT INTO orders (SaveOrderTx). -/
def DB.saveOrder (db : DB) (o : Order) : DB :=
  { db with orders := db.orders ++ [o] }

/-- UPDATE orders SET remaining_quantity, status WHERE order_id
(UpdateOrder/UpdateOrderTx update only those two columns). -/
def DB.updateOrder (db : DB) (o : Order) : DB :=
  { db with orders := db.orders.map (fun r =>
      if r.orderID == o.orderID then
        { r with remainingQuantity := o.remainingQuantity, status := o.status }
      else r) }

/-- INSERT INTO trades (SaveTradeTx). -/
def DB.saveTrade (db : DB) (t : Trade) : DB :=
  { db with trades := db.trades ++ [t] }

/-- SELECT ... FROM orders WHERE order_id = ? (GetOrder row lookup; a missing
row is sql.ErrNoRows, mapped to ErrOrderNotFound by the repository). -/
def DB.getOrder (db : DB) (oid : Nat) : Option Order :=
  db.orders.find? (fun r => r.orderID == oid)

/-- SELECT ... FROM orders WHERE symbol = ? AND status = 'open'
(repository GetOrderBook). -/
def DB.getOrderBook (db : DB) (sym : String) : List Order :=
  db.orders.filter (fun r => r.symbol == sym && r.status == OrderStatus.opened)

/-- First live index whose level has this price: the break on the first
price-matching entry in addToOrderBook and removeFromOrderBook. -/
def findLiveLevelIdx (levels : List Level) (sl : SideLevels) (price : Int) : Option Nat :=
  (List.range sl.levelsLen).find? (fun i =>
    (levelGet levels (cellGet sl.levelsBacking i)).price == price)

/-- Models addToOrderBook: append the order to the first entry with its
price, or append a fresh entry holding just this order.  A Go append may
leave spare capacity; the spare cells are never read because no captured
header outlives the call, so append is modelled as truncate-and-extend. -/
def addToOrderBook (s : EngineState) (o : Order) : EngineState :=
  let isAsk := o.side == Side.sell
  let m := if isAsk then s.asks else s.bids
  let sl := getSide m o.symbol
  match findLiveLevelIdx s.levels sl o.price.float64 with
  | some i =>
    let lid := cellGet sl.levelsBacking i
    let L := levelGet s.levels lid
    let L' : Level := { L with
      ordersBacking := L.ordersBacking.take L.ordersLen ++ [o.orderID],
      ordersLen := L.ordersLen + 1 }
    let m' := setSide m o.symbol sl
    if isAsk then { s with levels := s.levels.set lid L', asks := m' }
    else { s with levels := s.levels.set lid L', bids := m' }
  | none =>
    let lid := s.levels.length
    let L' : Level := { price := o.price.float64, ordersBacking := [o.orderID], ordersLen := 1 }
    let sl' : SideLevels := {
      levelsBacking := sl.levelsBacking.take sl.levelsLen ++ [lid],
      levelsLen := sl.levelsLen + 1 }
    let m' := setSide m o.symbol sl'
    if isAsk then { s with levels := s.levels ++ [L'], asks := m' }
    else { s with levels := s.levels ++ [L'], bids := m' }

/-- Models removeFromOrderBook: find the first entry with the price of o,
remove the order with the id of o from it (if present) by shifting the
backing array, and if the entry became empty remove it from the side the
same way.  The source breaks out of both scans after the first
price-matching entry. -/
def removeFromOrderBook (s : EngineState) (o : Order) : EngineState :=
  let isAsk := o.side == Side.sell
  let m := if isAsk then s.asks else s.bids
  match findSide m o.symbol with
  | none => s
  | some sl =>
    match findLiveLevelIdx s.levels sl o.price.float64 with
    | none =>
      let m' := setSide m o.symbol sl
      if isAsk then { s with asks := m' } else { s with bids := m' }
    | some i =>
      let lid := cellGet sl.levelsBacking i
      let L := levelGet s.levels lid
      match (List.range L.ordersLen).find? (fun j => cellGet L.ordersBacking j == o.orderID) with
      | none =>
        let m' := setSide m o.symbol sl
        if isAsk then { s with asks := m' } else { s with bids := m' }
      | some j =>
        let L' : Level := { L with
          ordersBacking := shiftRemove L.ordersBacking L.ordersLen j,
          ordersLen := L.ordersLen - 1 }
        let levels' := s.levels.set lid L'
        let sl' := if L'.ordersLen == 0 then
            {
              levelsBacking := shiftRemove sl.levelsBacking sl.levelsLen i,
              levelsLen := sl.levelsLen - 1 }
          else sl
        let m' := setSide m o.symbol sl'
        if isAsk then { s with levels := levels', asks := m' }
        else { s with levels := levels', bids := m' }

/-- Stable insertion of one element for the sort below. -/
def insertSorted (le : Nat → Nat → Bool) (x : Nat) : List Nat → List Nat
  | [] => [x]
  | y :: ys => if le x y then x :: y :: ys else y :: insertSorted le x ys

/-- Comparison sort used to model sort.Slice.  Go uses an unstable sort, but
on every state this program reaches the live level prices on one side are
pairwise distinct, so every comparison sort produces the same result. -/
def sortBy (le : Nat → Nat → Bool) : List Nat → List Nat
  | [] => []
  | x :: xs => insertSorted le x (sortBy le xs)

/-- Models the sort.Slice call of matchLimitOrder/matchMarketOrder: sort the
live prefix of the opposite-side backing array in place, ascending by price
for an incoming buy and descending for an incoming sell.  When the symbol is
absent from the map the slice is nil and nothing is written. -/
def sortOppositeSide (s : EngineState) (incomingSide : Side) (sym : String) : EngineState :=
  let oppIsBids := incomingSide == Side.sell
  let m := if oppIsBids then s.bids else s.asks
  match findSide m sym with
  | none => s
  | some sl =>
    let le : Nat → Nat → Bool := fun a b =>
      if oppIsBids then decide ((levelGet s.levels b).price ≤ (levelGet s.levels a).price)
      else decide ((levelGet s.levels a).price ≤ (levelGet s.levels b).price)
    let sl' : SideLevels := { sl with
      levelsBacking := sortBy le (sl.levelsBacking.take sl.levelsLen) ++ sl.levelsBacking.drop sl.levelsLen }
    let m' := setSide m sym sl'
    if oppIsBids then { s with bids := m' } else { s with asks := m' }

/-- Trade list, incoming remaining quantity and staged transaction threaded
through the matching loops. -/
structure MatchAcc where
  trades : List Trade
  remainingQty : Int
  staged : DB

/-- Models the inner loop over entry.Orders shared verbatim by
matchLimitOrder and matchMarketOrder.  k0 is the length of the slice header
captured when the loop begins; fuel counts the iterations left, so the loop
index is k0 - fuel.  Each iteration re-reads cell j of the current level
object because removeFromOrderBook shifts the shared backing in place.  The
Bool is false when UpdateOrderTx on the resting order fails (Go returns
nil, 0, err); the book mutations already applied remain in the state. -/
def matchRestingLoop (order : Order) (lid k0 : Nat) :
    Nat → EngineState → MatchAcc → EngineState × MatchAcc × Bool
  | 0, s, acc => (s, acc, true)
  | fuel + 1, s, acc =>
    if acc.remainingQty == 0 then (s, acc, true) else
    let j := k0 - (fuel + 1)
    let L := levelGet s.levels lid
    let rid := cellGet L.ordersBacking j
    let resting := heapGet s.heap rid
    let matchQty := fmin acc.remainingQty resting.remainingQuantity
    let trade0 : Trade := {
      tradeID := s.nextTradeID, symbol := order.symbol,
      buyOrderID := order.orderID, sellOrderID := resting.orderID,
      price := resting.price.float64, quantity := matchQty, createdAt := s.now }
    let trade := if order.side == Side.sell then
        { trade0 with buyOrderID := resting.orderID, sellOrderID := order.orderID }
      else trade0
    let acc1 : MatchAcc := { acc with
      trades := acc.trades ++ [trade],
      remainingQty := acc.remainingQty - matchQty }
    let resting1 := { resting with remainingQuantity := resting.remainingQuantity - matchQty }
    let resting2 := if resting1.remainingQuantity == 0 then
        { resting1 with status := OrderStatus.filled }
      else resting1
    let s1 := { s with
      heap := heapSet s.heap resting2,
      nextTradeID := s.nextTradeID + 1, now := s.now + 1 }
    if opFails s1.opCount s1.failAt then
      ({ s1 with opCount := s1.opCount + 1 }, acc1, false)
    else
    let s2 := { s1 with opCount := s1.opCount + 1 }
    let acc2 := { acc1 with staged := acc1.staged.updateOrder resting2 }
    let s3 := removeFromOrderBook s2 resting2
    matchRestingLoop order lid k0 fuel s3 acc2

/-- Models the outer loop of matchLimitOrder over the captured opposite-side
header of length n0, with the marketability filter (continue on a level
whose price is not marketable against the incoming limit price). -/
def matchLevelsLoopLimit (order : Order) (n0 : Nat) :
    Nat → EngineState → MatchAcc → EngineState × MatchAcc × Bool
  | 0, s, acc => (s, acc, true)
  | fuel + 1, s, acc =>
    if acc.remainingQty == 0 then (s, acc, true) else
    let i := n0 - (fuel + 1)
    let opp := if order.side == Side.sell then getSide s.bids order.symbol
      else getSide s.asks order.symbol
    let lid := cellGet opp.levelsBacking i
    let L := levelGet s.levels lid
    if (order.side == Side.buy && order.price.float64 < L.price)
        || (order.side == Side.sell && L.price < order.price.float64) then
      matchLevelsLoopLimit order n0 fuel s acc
    else
      match matchRestingLoop order lid L.ordersLen L.ordersLen s acc with
      | (s', acc', true) => matchLevelsLoopLimit order n0 fuel s' acc'
      | (s', acc', false) => (s', acc', false)

/-- Models the outer loop of matchMarketOrder: identical to the limit outer
loop except that no price filter applies. -/
def matchLevelsLoopMarket (order : Order) (n0 : Nat) :
    Nat → EngineState → MatchAcc → EngineState × MatchAcc × Bool
  | 0, s, acc => (s, acc, true)
  | fuel + 1, s, acc =>
    if acc.remainingQty == 0 then (s, acc, true) else
    let i := n0 - (fuel + 1)
    let opp := if order.side == Side.sell then getSide s.bids order.symbol
      else getSide s.asks order.symbol
    let lid := cellGet opp.levelsBacking i
    let L := levelGet s.levels lid
    match matchRestingLoop order lid L.ordersLen L.ordersLen s acc with
    | (s', acc', true) => matchLevelsLoopMarket order n0 fuel s' acc'
    | (s', acc', false) => (s', acc', false)

/-- Models matchLimitOrder: sort the opposite side, then walk the captured
header. -/
def matchLimitOrder (s : EngineState) (order : Order) (staged : DB) :
    EngineState × MatchAcc × Bool :=
  let s1 := sortOppositeSide s order.side order.symbol
  let opp := if order.side == Side.sell then getSide s1.bids order.symbol
    else getSide s1.asks order.symbol
  matchLevelsLoopLimit order opp.levelsLen opp.levelsLen s1
    { trades := [], remainingQty := order.remainingQuantity, staged := staged }

/-- Models matchMarketOrder. -/
def matchMarketOrder (s : EngineState) (order : Order) (staged : DB) :
    EngineState × MatchAcc × Bool :=
  let s1 := sortOppositeSide s order.side order.symbol
  let opp := if order.side == Side.sell then getSide s1.bids order.symbol
    else getSide s1.asks order.symbol
  matchLevelsLoopMarket order opp.levelsLen opp.levelsLen s1
    { trades := [], remainingQty := order.remainingQuantity, staged := staged }

/-- Models the SaveTradeTx loop of PlaceOrder; the Bool is false when a save
fails. -/
def saveTradesLoop : List Trade → EngineState → DB → EngineState × DB × Bool
  | [], s, staged => (s, staged, true)
  | t :: ts, s, staged =>
    if opFails s.opCount s.failAt then ({ s with opCount := s.opCount + 1 }, staged, false)
    else saveTradesLoop ts { s with opCount := s.opCount + 1 } (staged.saveTrade t)

/-- The argument object after the unconditional pre-validation overwrites of
PlaceOrder: assign the order id (uuid.New modelled by the fresh counter),
set status open and stamp the creation time. -/
def initOrder (s : EngineState) (order0 : Order) : Order :=
  { order0 with
    orderID := s.nextOrderID,
    status := OrderStatus.opened, createdAt := s.now }

/-- Final status block of PlaceOrder (lines after matching): remaining 0
means filled, a market order with remainder is canceled, otherwise the
status (open) is kept. -/
def finalizeOrder (order2 : Order) (remainingQty : Int) : Order :=
  let order3 := { order2 with remainingQuantity := remainingQty }
  if order3.remainingQuantity == 0 then { order3 with status := OrderStatus.filled }
  else if order3.otype == OrderType.market then { order3 with status := OrderStatus.canceled }
  else order3

/-- Tail of PlaceOrder after the incoming order has been updated: save the
trades, add a still-open limit order to the book, and commit (making the
staged rows the committed database).  On any failure the error is returned
with the committed database untouched (the deferred Rollback). -/
def placeOrderCommit (order4 : Order) (acc : MatchAcc) (s5 : EngineState) (staged1 : DB) :
    Except Err (List Trade) × Order × EngineState :=
  match saveTradesLoop acc.trades s5 staged1 with
  | (s6, _, false) => (Except.error Err.persistence, order4, s6)
  | (s6, staged2, true) =>
    let s7 := if order4.otype == OrderType.limit && order4.status == OrderStatus.opened then
        addToOrderBook { s6 with heap := heapSet s6.heap order4 } order4
      else s6
    if opFails s7.opCount s7.failAt then
      (Except.error Err.persistence, order4, { s7 with opCount := s7.opCount + 1 })
    else (Except.ok acc.trades, order4, { s7 with opCount := s7.opCount + 1, db := staged2 })

/-- Continuation of PlaceOrder on the result of the matching call: a failed
resting-order update aborts with the book mutations kept, otherwise the
incoming order is finalized and written (UpdateOrderTx) and the tail runs. -/
def placeOrderMatched (order2 : Order) (res : EngineState × MatchAcc × Bool) :
    Except Err (List Trade) × Order × EngineState :=
  match res with
  | (s4, acc, ok) =>
    if !ok then (Except.error Err.persistence, order2, s4)
    else
    let order4 := finalizeOrder order2 acc.remainingQty
    if opFails s4.opCount s4.failAt then
      (Except.error Err.persistence, order4, { s4 with opCount := s4.opCount + 1 })
    else
    placeOrderCommit order4 acc { s4 with opCount := s4.opCount + 1 }
      (acc.staged.updateOrder order4)

/-- Models PlaceOrder end to end: assign id/status/timestamp to the argument
(uuid.New and time.Now become fresh counters), validate, begin the
transaction, save the order, match, update the incoming order, save the
trades, add a still-open limit order to the book, and commit.  Every failing
store call returns an error with no trades; deferred Rollback means the
committed database is left untouched on every error path, while in-memory
mutations already applied stay.  The returned Order is the final state of
the mutated argument object. -/
def placeOrder (s : EngineState) (order0 : Order) :
    Except Err (List Trade) × Order × EngineState :=
  let order1 := initOrder s order0
  let s1 := { s with nextOrderID := s.nextOrderID + 1, now := s.now + 1 }
  if order1.symbol == "" || order1.initialQuantity ≤ 0 then
    (Except.error Err.invalidOrder, order1, s1)
  else if order1.otype == OrderType.limit && (!order1.price.valid || order1.price.float64 ≤ 0) then
    (Except.error Err.invalidOrder, order1, s1)
  else
  let order2 := if order1.otype == OrderType.market then
      { order1 with price := ⟨0, false⟩ }
    else order1
  if opFails s1.opCount s1.failAt then
    (Except.error Err.persistence, order2, { s1 with opCount := s1.opCount + 1 })
  else
  let s2 := { s1 with opCount := s1.opCount + 1 }
  if opFails s2.opCount s2.failAt then
    (Except.error Err.persistence, order2, { s2 with opCount := s2.opCount + 1 })
  else
  let s3 := { s2 with opCount := s2.opCount + 1 }
  let staged0 := s3.db.saveOrder order2
  placeOrderMatched order2
    (if order2.otype == OrderType.market then matchMarketOrder s3 order2 staged0
      else matchLimitOrder s3 order2 staged0)

/-- Models CancelOrder: fetch a fresh copy of the row, reject unknown ids and
non-open orders, set the copy to canceled, write it back (UpdateOrder may
fail), then remove the copy from the book. -/
def cancelOrder (s : EngineState) (orderID : Nat) : Except Err Unit × EngineState :=
  match s.db.getOrder orderID with
  | none => (Except.error Err.orderNotFound, s)
  | some row =>
    if row.status != OrderStatus.opened then (Except.error Err.orderNotOpen, s)
    else
    let row' := { row with status := OrderStatus.canceled }
    if opFails s.opCount s.failAt then
      (Except.error Err.persistence, { s with opCount := s.opCount + 1 })
    else
    let s1 := { s with opCount := s.opCount + 1, db := s.db.updateOrder row' }
    (Except.ok (), removeFromOrderBook s1 row')

/-- Service GetOrderBook: the read path straight from the store. -/
def getOrderBookSvc (s : EngineState) (sym : String) : List Order :=
  s.db.getOrderBook sym

/-- One externally triggered operation on the service. -/
inductive Op
  | place (o : Order)
  | cancel (orderID : Nat)

/-- State reached after one operation (outputs discarded). -/
def applyOp (s : EngineState) : Op → EngineState
  | Op.place o => (placeOrder s o).2.2
  | Op.cancel oid => (cancelOrder s oid).2

/-- Run a list of operations. -/
def runOps (s : EngineState) : List Op → EngineState
  | [] => s
  | op :: ops => runOps (applyOp s op) ops

/-- Fresh service process over an empty database, with an injected failure
schedule. -/
def initState (failAt : Option Nat) : EngineState :=
  {
    heap := fun _ => none, levels := [], bids := [], asks := [],
    db := { orders := [], trades := [] }, nextOrderID := 0, nextTradeID := 0,
    now := 0, opCount := 0, failAt := failAt }

/-- States the program can actually be in. -/
def Reachable (s : EngineState) : Prop :=
  ∃ fa ops, runOps (initState fa) ops = s

/-- Live prefix of a backing array. -/
def liveCells (backing : List Nat) (len : Nat) : List Nat := backing.take len

/-- Observable content of one level: its price and, per live order, the id,
remaining quantity and status. -/
def levelView (s : EngineState) (lid : Nat) : Int × List (Nat × Int × OrderStatus) :=
  let L := levelGet s.levels lid
  (L.price, (liveCells L.ordersBacking L.ordersLen).map (fun oid =>
    (oid, (heapGet s.heap oid).remainingQuantity, (heapGet s.heap oid).status)))

/-- Observable content of one side map. -/
def sideView (s : EngineState) (m : List (String × SideLevels)) :
    List (String × List (Int × List (Nat × Int × OrderStatus))) :=
  m.map (fun p => (p.1, (liveCells p.2.levelsBacking p.2.levelsLen).map (levelView s)))

/-- Observable content of the in-memory book: both sides. -/
def bookView (s : EngineState) :
    (List (String × List (Int × List (Nat × Int × OrderStatus)))) ×
    (List (String × List (Int × List (Nat × Int × OrderStatus)))) :=
  (sideView s s.bids, sideView s s.asks)

/-- All order ids resting live in one side map. -/
def liveOrderIDs (s : EngineState) (m : List (String × SideLevels)) : List Nat :=
  m.foldr (fun p r =>
    (liveCells p.2.levelsBacking p.2.levelsLen).foldr (fun lid r' =>
      liveCells (levelGet s.levels lid).ordersBacking (levelGet s.levels lid).ordersLen ++ r') r) []

/-- All order ids resting live anywhere in the book. -/
def bookOrderIDs (s : EngineState) : List Nat :=
  liveOrderIDs s s.bids ++ liveOrderIDs s s.asks

/-- A fresh limit-order request as the HTTP handler builds it (remaining
initialised to the requested quantity; id, status and timestamp are
overwritten by PlaceOrder). -/
def mkLimit (sym : String) (sd : Side) (p q : Int) : Order :=
  { orderID := 0, symbol := sym, side := sd, otype := OrderType.limit,
    price := ⟨p, true⟩, initialQuantity := q, remainingQuantity := q,
    status := OrderStatus.opened, createdAt := 0 }

/-- A fresh market-order request as the HTTP handler builds it. -/
def mkMarket (sym : String) (sd : Side) (q : Int) : Order :=
  { orderID := 0, symbol := sym, side := sd, otype := OrderType.market,
    price := ⟨0, false⟩, initialQuantity := q, remainingQuantity := q,
    status := OrderStatus.opened, createdAt := 0 }

/-- Trades surfaced by a PlaceOrder result (empty on error: Go returns a nil
slice together with the error). -/
def tradesOf (r : Except Err (List Trade) × Order × EngineState) : List Trade :=
  match r.1 with
  | Except.ok ts => ts
  | Except.error _ => []

/-- The error surfaced by a PlaceOrder result, if any. -/
def errOf (r : Except Err (List Trade) × Order × EngineState) : Option Err :=
  match r.1 with
  | Except.ok _ => none
  | Except.error e => some e

/-- Scenario: on an empty book, place limit sell X @100 qty 5 (it rests,
order id 0), with no injected failures. -/
def stateSell5 : EngineState :=
  runOps (initState none) [Op.place (mkLimit "X" Side.sell 100 5)]

/-- Then place limit buy X @100 qty 3 against the resting sell. -/
def runBuy3 : Except Err (List Trade) × Order × EngineState :=
  placeOrder stateSell5 (mkLimit "X" Side.buy 100 3)

/-- Scenario: three resting asks at distinct prices 100, 101, 102, qty 3
each (order ids 0, 1, 2), inserted in that order. -/
def stateAsks3 : EngineState :=
  runOps (initState none)
    [Op.place (mkLimit "X" Side.sell 100 3),
     Op.place (mkLimit "X" Side.sell 101 3),
     Op.place (mkLimit "X" Side.sell 102 3)]

/-- Then place limit buy X @102 qty 9, marketable against all three asks. -/
def runBuy102 : Except Err (List Trade) × Order × EngineState :=
  placeOrder stateAsks3 (mkLimit "X" Side.buy 102 9)

/-- Scenario: three resting sells at the same price 100, qty 3 each (order
ids 0, 1, 2), inserted in that order, then limit buy @100 qty 9. -/
def stateFIFO3 : EngineState :=
  runOps (initState none)
    [Op.place (mkLimit "X" Side.sell 100 3),
     Op.place (mkLimit "X" Side.sell 100 3),
     Op.place (mkLimit "X" Side.sell 100 3)]

/-- The incoming buy that should consume the level in arrival order. -/
def runBuyFIFO : Except Err (List Trade) × Order × EngineState :=
  placeOrder stateFIFO3 (mkLimit "X" Side.buy 100 9)

/-- Scenario: empty book, place limit buy X @100 qty 5 while the store is
forced to fail on operation index 3, the transaction commit (indices: 0
BeginTx, 1 SaveOrderTx, 2 UpdateOrderTx of the incoming order, 3 Commit). -/
def runCommitFail : Except Err (List Trade) × Order × EngineState :=
  placeOrder (initState (some 3)) (mkLimit "X" Side.buy 100 5)

/-- The side map an order of this side rests on (addToOrderBook routes sell
orders to asks, buy orders to bids). -/
def ownSideMap (s : EngineState) (sd : Side) : List (String × SideLevels) :=
  if sd == Side.sell then s.asks else s.bids

/-- The last live order id of the first live level with this price, if any:
the position at which addToOrderBook parks a new resting order. -/
def lastLiveOrderAt (s : EngineState) (m : List (String × SideLevels)) (sym : String)
    (price : Int) : Option Nat :=
  match findLiveLevelIdx s.levels (getSide m sym) price with
  | none => none
  | some i =>
    (liveCells (levelGet s.levels (cellGet (getSide m sym).levelsBacking i)).ordersBacking
      (levelGet s.levels (cellGet (getSide m sym).levelsBacking i)).ordersLen).getLast?

/-- The immutable part of an order object: everything except the remaining
quantity and the status, which are the only fields matching mutates through
a resting-order pointer. -/
def Order.core (o : Order) : Nat × String × Side × OrderType × NullFloat64 × Int × Nat :=
  (o.orderID, o.symbol, o.side, o.otype, o.price, o.initialQuantity, o.createdAt)

/-- Two heaps hold the same objects up to remaining quantity and status. -/
def coreAgree (h1 h2 : Nat → Option Order) : Prop :=
  ∀ i, (h1 i).map Order.core = (h2 i).map Order.core

/-- Well-formedness of one side map: every level cell (live or stale)
references an existing level object, and every order cell of that object
(live or stale) dereferences to a heap object keyed by the cell, resting on
this side of this symbol, of limit type, with a valid price equal to the
level price. -/
def SideOK (heap : Nat → Option Order) (levels : List Level)
    (m : List (String × SideLevels)) (sd : Side) : Prop :=
  ∀ p ∈ m, ∀ lid ∈ p.2.levelsBacking, lid < levels.length ∧
    ∀ oid ∈ (levelGet levels lid).ordersBacking, ∃ o : Order,
      heap oid = some o ∧ o.orderID = oid ∧ o.symbol = p.1 ∧ o.side = sd ∧
      o.otype = OrderType.limit ∧ o.price = ⟨(levelGet levels lid).price, true⟩

/-- Live-prefix structure of one side map: live lengths in bounds, pairwise
distinct live level prices, and every live level nonempty, in bounds and
without duplicate live order cells. -/
def LiveOK (levels : List Level) (m : List (String × SideLevels)) : Prop :=
  ∀ p ∈ m, p.2.levelsLen ≤ p.2.levelsBacking.length ∧
    ((liveCells p.2.levelsBacking p.2.levelsLen).map
      (fun lid => (levelGet levels lid).price)).Nodup ∧
    ∀ lid ∈ liveCells p.2.levelsBacking p.2.levelsLen,
      (levelGet levels lid).ordersLen ≠ 0 ∧
      (levelGet levels lid).ordersLen ≤ (levelGet levels lid).ordersBacking.length ∧
      (liveCells (levelGet levels lid).ordersBacking (levelGet levels lid).ordersLen).Nodup

/-- Invariant satisfied by every state the service reaches. -/
structure WF (s : EngineState) : Prop where
  heapKey : ∀ i o, s.heap i = some o → o.orderID = i ∧ i < s.nextOrderID
  cellBound : ∀ L ∈ s.levels, ∀ oid ∈ L.ordersBacking, oid < s.nextOrderID
  levelsBound : ∀ L ∈ s.levels, L.ordersLen ≤ L.ordersBacking.length
  bidsOK : SideOK s.heap s.levels s.bids Side.buy
  asksOK : SideOK s.heap s.levels s.asks Side.sell
  bidsKeys : (s.bids.map Prod.fst).Nodup
  asksKeys : (s.asks.map Prod.fst).Nodup
  bidsLive : LiveOK s.levels s.bids
  asksLive : LiveOK s.levels s.asks
  dbIDs : ∀ r ∈ s.db.orders, r.orderID < s.nextOrderID
  dbHeap : ∀ r ∈ s.db.orders, ∀ o, s.heap r.orderID = some o →
    r.otype = o.otype ∧ r.symbol = o.symbol ∧ r.side = o.side ∧ r.price = o.price
  dbMarket : ∀ r ∈ s.db.orders, r.otype = OrderType.market → r.status ≠ OrderStatus.opened

/-- What a trade surfaced by PlaceOrder says about its participants: its
price is the price of a resting (maker) limit order that existed in the
heap when the call began, and the buy and sell order ids are the ids of the
participant on each side, whichever of the two is the incoming order. -/
def TradeOK (s0 : EngineState) (incoming : Order) (t : Trade) : Prop :=
  ∃ maker : Order, s0.heap maker.orderID = some maker ∧
    maker.otype = OrderType.limit ∧ maker.price.valid = true ∧
    t.price = maker.price.float64 ∧
    ((incoming.side = Side.buy ∧ maker.side = Side.sell ∧
      t.buyOrderID = incoming.orderID ∧ t.sellOrderID = maker.orderID) ∨
     (incoming.side = Side.sell ∧ maker.side = Side.buy ∧
      t.buyOrderID = maker.orderID ∧ t.sellOrderID = incoming.orderID))

/-- The opposite side. -/
def oppSideOf : Side → Side
  | Side.buy => Side.sell
  | Side.sell => Side.buy

/-- Relation between the state at the start of matching and any state the
matching loops produce from it: order objects change only in remaining
quantity and status, level objects only shrink (same price, cell subset,
backing length kept), the side maps only lose level cells in place, and
the committed database and the id counter are untouched. -/
structure Descends (sB s : EngineState) : Prop where
  core : coreAgree sB.heap s.heap
  nextID : s.nextOrderID = sB.nextOrderID
  levLen : s.levels.length = sB.levels.length
  price : ∀ lid, (levelGet s.levels lid).price = (levelGet sB.levels lid).price
  cells : ∀ lid, ∀ oid ∈ (levelGet s.levels lid).ordersBacking,
    oid ∈ (levelGet sB.levels lid).ordersBacking
  backLen : ∀ lid, (levelGet s.levels lid).ordersBacking.length
    = (levelGet sB.levels lid).ordersBacking.length
  dbEq : s.db = sB.db
  bidsCells : ∀ sym, ∀ x ∈ (getSide s.bids sym).levelsBacking,
    x ∈ (getSide sB.bids sym).levelsBacking
  asksCells : ∀ sym, ∀ x ∈ (getSide s.asks sym).levelsBacking,
    x ∈ (getSide sB.asks sym).levelsBacking
  bidsLen : ∀ sym, (getSide s.bids sym).levelsBacking.length
    = (getSide sB.bids sym).levelsBacking.length
  asksLen : ∀ sym, (getSide s.asks sym).levelsBacking.length
    = (getSide sB.asks sym).levelsBacking.length

/-- Rows of the staged transaction during one PlaceOrder call, relative to
the heap and the id bound at the start of matching and the validated
incoming order: every row id is in bounds, the row of the incoming order
carries its identity fields, every row of an id with a heap object carries
that object's identity fields, and every other market row is closed (only
the incoming row may be an open market row, and the final update of the
incoming order closes it before the commit). -/
def StagedOK (bound : Nat) (h0 : Nat → Option Order) (order2 : Order) (st : DB) : Prop :=
  ∀ r ∈ st.orders, r.orderID < bound ∧
    (r.orderID = order2.orderID → r.otype = order2.otype ∧ r.symbol = order2.symbol ∧
      r.side = order2.side ∧ r.price = order2.price) ∧
    (∀ o, h0 r.orderID = some o → r.otype = o.otype ∧ r.symbol = o.symbol ∧
      r.side = o.side ∧ r.price = o.price) ∧
    (r.orderID ≠ order2.orderID → r.otype = OrderType.market → r.status ≠ OrderStatus.opened)

/-- The book helpers never touch the committed database. -/
theorem removeFromOrderBook_db (s : EngineState) (o : Order) :
    (removeFromOrderBook s o).db = s.db := by
  simp only [removeFromOrderBook]
  repeat' split
  all_goals rfl

/-- addToOrderBook never touches the committed database. -/
theorem addToOrderBook_db (s : EngineState) (o : Order) :
    (addToOrderBook s o).db = s.db := by
  simp only [addToOrderBook]
  repeat' split
  all_goals rfl

/-- Sorting the opposite side never touches the committed database. -/
theorem sortOppositeSide_db (s : EngineState) (sd : Side) (sym : String) :
    (sortOppositeSide s sd sym).db = s.db := by
  simp only [sortOppositeSide]
  repeat' split
  all_goals rfl

/-- The inner matching loop stages its writes in the transaction and leaves
the committed database untouched. -/
theorem matchRestingLoop_db (order : Order) (lid k0 : Nat) :
    ∀ (fuel : Nat) (s : EngineState) (acc : MatchAcc),
      (matchRestingLoop order lid k0 fuel s acc).1.db = s.db := by
  intro fuel
  induction fuel with
  | zero => intro s acc; rfl
  | succ n ih =>
    intro s acc
    simp only [matchRestingLoop]
    split
    · rfl
    · split
      · rfl
      · rw [ih, removeFromOrderBook_db]

/-- The limit outer loop leaves the committed database untouched. -/
theorem matchLevelsLoopLimit_db (order : Order) (n0 : Nat) :
    ∀ (fuel : Nat) (s : EngineState) (acc : MatchAcc),
      (matchLevelsLoopLimit order n0 fuel s acc).1.db = s.db := by
  intro fuel
  induction fuel with
  | zero => intro s acc; rfl
  | succ n ih =>
    intro s acc
    simp only [matchLevelsLoopLimit]
    repeat' split
    all_goals try rfl
    all_goals try exact ih _ _
    all_goals
      rename_i s' acc' heq
      first
      | exact (congrArg (fun p : EngineState × MatchAcc × Bool => p.1.db) heq).symm.trans
          (matchRestingLoop_db order _ _ _ s acc)
      | (rw [ih s' acc']
         exact (congrArg (fun p : EngineState × MatchAcc × Bool => p.1.db) heq).symm.trans
           (matchRestingLoop_db order _ _ _ s acc))

/-- The market outer loop leaves the committed database untouched. -/
theorem matchLevelsLoopMarket_db (order : Order) (n0 : Nat) :
    ∀ (fuel : Nat) (s : EngineState) (acc : MatchAcc),
      (matchLevelsLoopMarket order n0 fuel s acc).1.db = s.db := by
  intro fuel
  induction fuel with
  | zero => intro s acc; rfl
  | succ n ih =>
    intro s acc
    simp only [matchLevelsLoopMarket]
    repeat' split
    all_goals try rfl
    all_goals try exact ih _ _
    all_goals
      rename_i s' acc' heq
      first
      | exact (congrArg (fun p : EngineState × MatchAcc × Bool => p.1.db) heq).symm.trans
          (matchRestingLoop_db order _ _ _ s acc)
      | (rw [ih s' acc']
         exact (congrArg (fun p : EngineState × MatchAcc × Bool => p.1.db) heq).symm.trans
           (matchRestingLoop_db order _ _ _ s acc))

/-- matchLimitOrder leaves the committed database untouched. -/
theorem matchLimitOrder_db (s : EngineState) (order : Order) (staged : DB) :
    (matchLimitOrder s order staged).1.db = s.db := by
  unfold matchLimitOrder
  rw [matchLevelsLoopLimit_db, sortOppositeSide_db]

/-- matchMarketOrder leaves the committed database untouched. -/
theorem matchMarketOrder_db (s : EngineState) (order : Order) (staged : DB) :
    (matchMarketOrder s order staged).1.db = s.db := by
  unfold matchMarketOrder
  rw [matchLevelsLoopMarket_db, sortOppositeSide_db]

/-- The trade-saving loop leaves the committed database untouched. -/
theorem saveTradesLoop_db :
    ∀ (ts : List Trade) (s : EngineState) (staged : DB),
      (saveTradesLoop ts s staged).1.db = s.db := by
  intro ts
  induction ts with
  | nil => intro s staged; rfl
  | cons t ts ih =>
    intro s staged
    unfold saveTradesLoop
    split
    · rfl
    · rw [ih]

/-- Either matching call leaves the committed database untouched. -/
theorem matchEither_db (s : EngineState) (o : Order) (st : DB) :
    (if (o.otype == OrderType.market) = true then matchMarketOrder s o st
      else matchLimitOrder s o st).1.db = s.db := by
  split
  · exact matchMarketOrder_db s o st
  · exact matchLimitOrder_db s o st

/-- The tail of PlaceOrder returns the committed database untouched on any
error (the transaction is rolled back, not committed). -/
theorem placeOrderCommit_error_db (order4 : Order) (acc : MatchAcc) (s5 : EngineState)
    (staged1 : DB) (e : Err) (o' : Order) (s' : EngineState)
    (h : placeOrderCommit order4 acc s5 staged1 = (Except.error e, o', s')) :
    s'.db = s5.db := by
  simp only [placeOrderCommit] at h
  split at h
  next s6 stg heq =>
    simp only [Prod.mk.injEq] at h
    obtain ⟨-, -, hs⟩ := h
    subst hs
    exact (congrArg (fun p : EngineState × DB × Bool => p.1.db) heq).symm.trans
      (saveTradesLoop_db _ _ _)
  next s6 staged2 heq =>
    have h6 : s6.db = s5.db :=
      (congrArg (fun p : EngineState × DB × Bool => p.1.db) heq).symm.trans
        (saveTradesLoop_db _ _ _)
    repeat' split at h
    all_goals simp only [Prod.mk.injEq] at h
    all_goals try (obtain ⟨he, -, hs⟩ := h; subst hs)
    all_goals try exact h6
    all_goals try exact (addToOrderBook_db _ _).trans h6
    all_goals simp at he

/-- The continuation after matching returns the committed database of the
matching result untouched on any error. -/
theorem placeOrderMatched_error_db (order2 : Order) (res : EngineState × MatchAcc × Bool)
    (e : Err) (o' : Order) (s' : EngineState)
    (h : placeOrderMatched order2 res = (Except.error e, o', s')) :
    s'.db = res.1.db := by
  obtain ⟨s4, acc, ok⟩ := res
  simp only [placeOrderMatched] at h
  split at h
  · simp only [Prod.mk.injEq] at h
    obtain ⟨-, -, hs⟩ := h
    subst hs
    rfl
  · split at h
    · simp only [Prod.mk.injEq] at h
      obtain ⟨-, -, hs⟩ := h
      subst hs
      rfl
    · have h5 := placeOrderCommit_error_db _ _ _ _ _ _ _ h
      exact h5

/-- C1 (amended): when PlaceOrder fails, no trades are surfaced and the
committed store is exactly as before the call (the transaction was rolled
back); the in-memory book, however, is not restored, as the counterexample
run shows. -/
theorem C1_failed_persistence_rolls_back_store_only (s : EngineState) (o : Order)
    (e : Err) (o' : Order) (s' : EngineState)
    (h : placeOrder s o = (Except.error e, o', s')) :
    tradesOf (placeOrder s o) = [] ∧ s'.db = s.db := by
  refine ⟨by simp [tradesOf, h], ?_⟩
  simp only [placeOrder] at h
  repeat' split at h
  all_goals try (simp only [Prod.mk.injEq] at h; obtain ⟨-, -, hs⟩ := h; subst hs; rfl)
  all_goals
    have h2 := placeOrderMatched_error_db _ _ _ _ _ h
    rw [h2]
    first
    | exact matchMarketOrder_db _ _ _
    | exact matchLimitOrder_db _ _ _

/-- Witness for the amended C1 theorem at the commit-failure run. -/
theorem C1_failed_persistence_rolls_back_store_only_witness :
    tradesOf runCommitFail = [] ∧ runCommitFail.2.2.db = (initState (some 3)).db :=
  C1_failed_persistence_rolls_back_store_only (initState (some 3))
    (mkLimit "X" Side.buy 100 5) Err.persistence runCommitFail.2.1 runCommitFail.2.2 (by rfl)

/-- C2: the claim says a resting order is removed from its level exactly
when its remaining quantity reaches 0, and that after limit sell qty 5 then
marketable limit buy qty 3 the resting sell stays in the book with
remaining 2 and status open.  The code instead calls removeFromOrderBook
unconditionally after every match: the buy fills with one trade at 100 for
qty 3 and the database row of the resting sell is updated to remaining 2
and status open, yet the in-memory ask side of X ends with no levels at
all, so the partially filled resting order is gone from the book. -/
theorem C2_partially_filled_resting_order_dropped :
    (tradesOf runBuy3).map (fun t => (t.price, t.quantity, t.buyOrderID, t.sellOrderID))
      = [(100, 3, 1, 0)] ∧
    runBuy3.2.1.status = OrderStatus.filled ∧
    (runBuy3.2.2.db.getOrder 0).map (fun r => (r.remainingQuantity, r.status))
      = some (2, OrderStatus.opened) ∧
    bookView runBuy3.2.2 = ([], [("X", [])]) := by
  decide

/-- C3: the claim says an incoming marketable order trades against levels
in best-price-first order.  With resting asks at 100, 101, 102 (qty 3 each)
and an incoming limit buy at 102 for qty 9, the code removes the emptied
100 level from the side while the outer loop walks the captured slice
header, which skips the 101 level: the trades execute at 100 then at 102,
the buy keeps remaining 3, and the 101 ask (order id 1, remaining 3, still
open) is left untouched in the book even though it was marketable. -/
theorem C3_best_price_level_skipped :
    (tradesOf runBuy102).map (fun t => (t.price, t.quantity)) = [(100, 3), (102, 3)] ∧
    runBuy102.2.1.remainingQuantity = 3 ∧
    bookView runBuy102.2.2
      = ([("X", [(102, [(3, 3, OrderStatus.opened)])])],
         [("X", [(101, [(1, 3, OrderStatus.opened)])])]) := by
  decide

/-- C4: the claim says two resting orders at one price match in arrival
order.  With three resting sells at 100 (ids 0, 1, 2 in arrival order) and
an incoming buy for qty 9, removing the filled order 0 shifts the shared
backing array under the captured inner loop header: the loop then matches
order 2 (the newest) before order 1, revisits the stale cell of order 2,
and never matches order 1 at all, leaving it in the book with remaining 3
while the buy rests with remaining 3 on the other side. -/
theorem C4_fifo_violated_second_arrival_skipped :
    (tradesOf runBuyFIFO).map (fun t => (t.sellOrderID, t.quantity)) = [(0, 3), (2, 3), (2, 0)] ∧
    bookView runBuyFIFO.2.2
      = ([("X", [(100, [(3, 3, OrderStatus.opened)])])],
         [("X", [(100, [(1, 3, OrderStatus.opened)])])]) := by
  decide

/-- C5: the claim says every emitted trade has positive quantity.  In the
same three-sells-at-one-price run the inner loop revisits the stale cell of
the already filled order 2 and emits a trade of quantity 0 against it, so
the surfaced trade quantities are 3, 3, 0 — and the repository schema
itself declares CHECK (quantity > 0) on the trades table. -/
theorem C5_trade_with_zero_quantity_emitted :
    (tradesOf runBuyFIFO).map Trade.quantity = [3, 3, 0] := by
  decide

/-- C1: the claim says a failed persistence operation leaves the in-memory
book exactly as before the call.  Forcing the transaction commit to fail on
an otherwise empty book, PlaceOrder of a limit buy returns a persistence
error and commits nothing to the store, but the order was already added to
the in-memory book and stays there: the book after the call differs from
the book before it. -/
theorem C1_book_left_mutated_on_commit_failure :
    tradesOf runCommitFail = [] ∧
    errOf runCommitFail = some Err.persistence ∧
    runCommitFail.2.2.db.orders = [] ∧
    bookView runCommitFail.2.2
      = ([("X", [(100, [(0, 5, OrderStatus.opened)])])], []) ∧
    bookView (initState (some 3)) = ([], []) := by
  decide

/-- C9: validation happens before any book or store mutation: an input with
an empty symbol, a non-positive quantity, or a limit type with an absent or
non-positive price is rejected with InvalidOrder while the heap, the levels,
both sides of the book and the committed store are exactly as before; and
for a market order that passes validation the supplied price field is
ignored: the whole call result is identical for any two price fields. -/
theorem C9_validation_first_and_market_price_ignored (s : EngineState) (o : Order) :
    ((o.symbol = "" ∨ o.initialQuantity ≤ 0 ∨
        (o.otype = OrderType.limit ∧ (o.price.valid = false ∨ o.price.float64 ≤ 0))) →
      (placeOrder s o).1 = Except.error Err.invalidOrder ∧
      (placeOrder s o).2.2.heap = s.heap ∧ (placeOrder s o).2.2.levels = s.levels ∧
      (placeOrder s o).2.2.bids = s.bids ∧ (placeOrder s o).2.2.asks = s.asks ∧
      (placeOrder s o).2.2.db = s.db) ∧
    (o.otype = OrderType.market → o.symbol ≠ "" → ¬ o.initialQuantity ≤ 0 →
      ∀ p₁ p₂ : NullFloat64,
        placeOrder s { o with price := p₁ } = placeOrder s { o with price := p₂ }) := by
  constructor
  · intro hbad
    have hcond : (o.symbol == "" || decide (o.initialQuantity ≤ 0)) = true
        ∨ ((o.symbol == "" || decide (o.initialQuantity ≤ 0)) = false ∧
           (o.otype == OrderType.limit && (!o.price.valid || decide (o.price.float64 ≤ 0))) = true) := by
      rcases hbad with h | h | ⟨h1, h2⟩
      · left; simp [h]
      · left; simp [h]
      · by_cases hc : (o.symbol == "" || decide (o.initialQuantity ≤ 0)) = true
        · left; exact hc
        · right
          refine ⟨by simpa using hc, ?_⟩
          rcases h2 with h2 | h2 <;> simp [h1, h2]
    rcases hcond with hc | ⟨hc, hc2⟩
    · simp [placeOrder, initOrder, hc]
    · simp [placeOrder, initOrder, hc, hc2]
  · intro hm hsym hqty p₁ p₂
    simp [placeOrder, initOrder, hm, hsym, hqty]

/-- Witness for C9: an empty-symbol limit order is rejected with no book or
store change, and a market sell is processed identically whether a price of
123 was supplied or none. -/
theorem C9_validation_first_and_market_price_ignored_witness :
    ((placeOrder (initState none) (mkLimit "" Side.buy 100 5)).1 = Except.error Err.invalidOrder ∧
      (placeOrder (initState none) (mkLimit "" Side.buy 100 5)).2.2.heap = (initState none).heap ∧
      (placeOrder (initState none) (mkLimit "" Side.buy 100 5)).2.2.levels = (initState none).levels ∧
      (placeOrder (initState none) (mkLimit "" Side.buy 100 5)).2.2.bids = (initState none).bids ∧
      (placeOrder (initState none) (mkLimit "" Side.buy 100 5)).2.2.asks = (initState none).asks ∧
      (placeOrder (initState none) (mkLimit "" Side.buy 100 5)).2.2.db = (initState none).db) ∧
    placeOrder (initState none) { mkMarket "X" Side.sell 4 with price := ⟨123, true⟩ } =
      placeOrder (initState none) { mkMarket "X" Side.sell 4 with price := ⟨0, false⟩ } := by
  constructor
  · exact (C9_validation_first_and_market_price_ignored (initState none)
      (mkLimit "" Side.buy 100 5)).1 (Or.inl rfl)
  · exact (C9_validation_first_and_market_price_ignored (initState none)
      (mkMarket "X" Side.sell 4)).2 rfl (by decide) (by decide) ⟨123, true⟩ ⟨0, false⟩

/-- C10: PlaceOrder overwrites the argument order id, status and creation
timestamp before validating, so a rejected input still comes back mutated
with the freshly assigned id (the next generator value), status open and
the current clock value, while its symbol, side, type, price, initial and
remaining quantity are untouched and neither the book nor the store
changes. -/
theorem C10_argument_mutated_even_when_rejected (s : EngineState) (o : Order)
    (hbad : o.symbol = "" ∨ o.initialQuantity ≤ 0 ∨
      (o.otype = OrderType.limit ∧ (o.price.valid = false ∨ o.price.float64 ≤ 0))) :
    (placeOrder s o).2.1 = { o with
      orderID := s.nextOrderID,
      status := OrderStatus.opened, createdAt := s.now } ∧
    (placeOrder s o).1 = Except.error Err.invalidOrder ∧
    (placeOrder s o).2.2.heap = s.heap ∧ (placeOrder s o).2.2.levels = s.levels ∧
    (placeOrder s o).2.2.bids = s.bids ∧ (placeOrder s o).2.2.asks = s.asks ∧
    (placeOrder s o).2.2.db = s.db := by
  have hcond : (o.symbol == "" || decide (o.initialQuantity ≤ 0)) = true
      ∨ ((o.symbol == "" || decide (o.initialQuantity ≤ 0)) = false ∧
         (o.otype == OrderType.limit && (!o.price.valid || decide (o.price.float64 ≤ 0))) = true) := by
    rcases hbad with h | h | ⟨h1, h2⟩
    · left; simp [h]
    · left; simp [h]
    · by_cases hc : (o.symbol == "" || decide (o.initialQuantity ≤ 0)) = true
      · left; exact hc
      · right
        refine ⟨by simpa using hc, ?_⟩
        rcases h2 with h2 | h2 <;> simp [h1, h2]
  rcases hcond with hc | ⟨hc, hc2⟩
  · simp [placeOrder, initOrder, hc]
  · simp [placeOrder, initOrder, hc, hc2]

/-- Witness for C10 at a zero-quantity limit buy. -/
theorem C10_argument_mutated_even_when_rejected_witness :
    (placeOrder (initState none) (mkLimit "X" Side.buy 100 0)).2.1
        = { mkLimit "X" Side.buy 100 0 with
            orderID := (initState none).nextOrderID,
            status := OrderStatus.opened, createdAt := (initState none).now } ∧
    (placeOrder (initState none) (mkLimit "X" Side.buy 100 0)).1 = Except.error Err.invalidOrder ∧
    (placeOrder (initState none) (mkLimit "X" Side.buy 100 0)).2.2.heap = (initState none).heap ∧
    (placeOrder (initState none) (mkLimit "X" Side.buy 100 0)).2.2.levels = (initState none).levels ∧
    (placeOrder (initState none) (mkLimit "X" Side.buy 100 0)).2.2.bids = (initState none).bids ∧
    (placeOrder (initState none) (mkLimit "X" Side.buy 100 0)).2.2.asks = (initState none).asks ∧
    (placeOrder (initState none) (mkLimit "X" Side.buy 100 0)).2.2.db = (initState none).db :=
  C10_argument_mutated_even_when_rejected (initState none) (mkLimit "X" Side.buy 100 0)
    (Or.inr (Or.inl (by decide)))

/-- A cell read in bounds is a member of the backing array. -/
theorem cellGet_mem {l : List Nat} {i : Nat} (h : i < l.length) : cellGet l i ∈ l := by
  unfold cellGet
  rw [List.getD_eq_getElem l 0 h]
  exact List.getElem_mem h

/-- Live cells are cells. -/
theorem liveCells_subset {b : List Nat} {n : Nat} : ∀ x ∈ liveCells b n, x ∈ b :=
  fun _ hx => List.mem_of_mem_take hx

/-- Shifting an element out preserves the backing length. -/
theorem shiftRemove_length {α : Type} {b : List α} {live i : Nat}
    (hi : i < live) (hl : live ≤ b.length) :
    (shiftRemove b live i).length = b.length := by
  simp only [shiftRemove, List.length_append, List.length_take, List.length_drop]
  omega

/-- Every cell after a shift was a cell before. -/
theorem shiftRemove_subset {α : Type} {b : List α} {live i : Nat} :
    ∀ x ∈ shiftRemove b live i, x ∈ b := by
  intro x hx
  simp only [shiftRemove, List.mem_append] at hx
  rcases hx with (h | h) | h
  · exact List.mem_of_mem_take h
  · exact List.mem_of_mem_drop (List.mem_of_mem_take h)
  · exact List.mem_of_mem_drop h

/-- The live prefix after a shift: the old live prefix with position i gone. -/
theorem take_shiftRemove {α : Type} {b : List α} {live i : Nat}
    (hi : i < live) (hl : live ≤ b.length) :
    (shiftRemove b live i).take (live - 1)
      = b.take i ++ (b.drop (i + 1)).take (live - i - 1) := by
  have hA : (b.take i).length = i := by
    rw [List.length_take]; omega
  have hB : ((b.drop (i + 1)).take (live - i - 1)).length = live - i - 1 := by
    rw [List.length_take, List.length_drop]; omega
  have hAB : (b.take i ++ (b.drop (i + 1)).take (live - i - 1)).length = live - 1 := by
    rw [List.length_append, hA, hB]; omega
  unfold shiftRemove
  rw [List.take_append_eq_append_take]
  rw [List.take_of_length_le (le_of_eq hAB)]
  rw [hAB]
  rw [show live - 1 - (live - 1) = 0 from by omega, List.take_zero, List.append_nil]

/-- The old live prefix shown around position i. -/
theorem take_eq_cons_middle {b : List Nat} {live i : Nat}
    (hi : i < live) (hl : live ≤ b.length) :
    b.take live = b.take i ++ cellGet b i :: (b.drop (i + 1)).take (live - i - 1) := by
  have hib : i < b.length := by omega
  obtain ⟨n, rfl⟩ : ∃ n, live = i + n + 1 := ⟨live - i - 1, by omega⟩
  rw [show i + n + 1 - i - 1 = n from by omega]
  rw [show i + n + 1 = i + (n + 1) from by omega, List.take_add,
    List.drop_eq_getElem_cons hib, List.take_succ_cons]
  simp only [cellGet]
  rw [List.getD_eq_getElem b 0 hib]

/-- Removing a live element makes the live prefix a sublist of the old one. -/
theorem liveCells_shiftRemove_sublist {b : List Nat} {live i : Nat}
    (hi : i < live) (hl : live ≤ b.length) :
    List.Sublist (liveCells (shiftRemove b live i) (live - 1)) (liveCells b live) := by
  unfold liveCells
  rw [take_shiftRemove hi hl, take_eq_cons_middle hi hl]
  exact (List.sublist_cons_self _ _).append_left _

/-- insertSorted permutes. -/
theorem insertSorted_perm (le : Nat → Nat → Bool) (x : Nat) (l : List Nat) :
    List.Perm (insertSorted le x l) (x :: l) := by
  induction l with
  | nil => simp [insertSorted]
  | cons y ys ih =>
    simp only [insertSorted]
    split
    · exact List.Perm.refl _
    · exact (ih.cons y).trans (List.Perm.swap x y ys)

/-- The comparison sort permutes. -/
theorem sortBy_perm (le : Nat → Nat → Bool) (l : List Nat) : List.Perm (sortBy le l) l := by
  induction l with
  | nil => exact List.Perm.refl _
  | cons x xs ih => exact (insertSorted_perm le x _).trans (ih.cons x)

/-- Looking up the written key after setSide returns the written value. -/
theorem findSide_setSide_self (m : List (String × SideLevels)) (sym : String) (v : SideLevels) :
    findSide (setSide m sym v) sym = some v := by
  induction m with
  | nil => simp [setSide, findSide]
  | cons q m ih =>
    by_cases h : (q.1 == sym) = true
    · simp [setSide, findSide, h]
    · simp only [setSide]
      rw [if_neg h]
      unfold findSide
      have hf : (q.1 == sym) = false := by simpa using h
      simp only [List.find?_cons, hf]
      exact ih

/-- Looking up a different key after setSide is unchanged. -/
theorem findSide_setSide_other (m : List (String × SideLevels)) (sym sym' : String)
    (v : SideLevels) (h : sym' ≠ sym) :
    findSide (setSide m sym v) sym' = findSide m sym' := by
  induction m with
  | nil => simp [setSide, findSide, Ne.symm h]
  | cons q m ih =>
    by_cases hq : (q.1 == sym) = true
    · have hqs : q.1 = sym := by simpa using hq
      have h1 : (sym == sym') = false := by simp [Ne.symm h]
      have h2 : (q.1 == sym') = false := by simp [hqs, Ne.symm h]
      simp only [setSide]
      rw [if_pos hq]
      unfold findSide
      simp only [List.find?_cons, h1, h2]
    · simp only [setSide]
      rw [if_neg hq]
      unfold findSide
      by_cases hq' : (q.1 == sym') = true
      · simp only [List.find?_cons, hq']
      · have hf : (q.1 == sym') = false := by simpa using hq'
        simp only [List.find?_cons, hf]
        exact ih

/-- setSide membership: an entry of the result is the written pair or an old
entry. -/
theorem mem_setSide {m : List (String × SideLevels)} {sym : String} {v : SideLevels} :
    ∀ p ∈ setSide m sym v, p = (sym, v) ∨ p ∈ m := by
  induction m with
  | nil => intro p hp; simp [setSide] at hp; left; exact hp
  | cons q m ih =>
    intro p hp
    by_cases h : (q.1 == sym) = true
    · rw [setSide, if_pos h] at hp
      rcases List.mem_cons.mp hp with hp | hp
      · left; exact hp
      · right; exact List.mem_cons_of_mem _ hp
    · rw [setSide, if_neg h] at hp
      rcases List.mem_cons.mp hp with hp | hp
      · right; exact hp ▸ List.mem_cons_self _ _
      · rcases ih p hp with h' | h'
        · left; exact h'
        · right; exact List.mem_cons_of_mem _ h'

/-- setSide keys: unchanged when the key was present, appended otherwise. -/
theorem keys_setSide (m : List (String × SideLevels)) (sym : String) (v : SideLevels) :
    (setSide m sym v).map Prod.fst = m.map Prod.fst
      ∨ ((setSide m sym v).map Prod.fst = m.map Prod.fst ++ [sym] ∧ findSide m sym = none) := by
  induction m with
  | nil => right; simp [setSide, findSide]
  | cons q m ih =>
    by_cases h : (q.1 == sym) = true
    · left
      have hqs : q.1 = sym := by simpa using h
      rw [setSide, if_pos h]
      simp [hqs]
    · rcases ih with h' | ⟨h', hn⟩
      · left
        rw [setSide, if_neg h]
        simp [h']
      · right
        constructor
        · rw [setSide, if_neg h]
          simp [h']
        · unfold findSide
          have hf : (q.1 == sym) = false := by simpa using h
          simp only [List.find?_cons, hf]
          exact hn

/-- getSide after setSide at the written key. -/
theorem getSide_setSide_self (m : List (String × SideLevels)) (sym : String) (v : SideLevels) :
    getSide (setSide m sym v) sym = v := by
  unfold getSide
  rw [findSide_setSide_self]
  rfl

/-- Writing back the value that lookup found leaves the map unchanged. -/
theorem setSide_findSide_self {m : List (String × SideLevels)} {sym : String} {v : SideLevels}
    (h : findSide m sym = some v) : setSide m sym v = m := by
  induction m with
  | nil => simp [findSide] at h
  | cons q m ih =>
    by_cases hq : (q.1 == sym) = true
    · have hqs : q.1 = sym := by simpa using hq
      unfold findSide at h
      rw [List.find?_cons] at h
      rw [hq] at h
      simp only [Option.map] at h
      have h2 : q.2 = v := by simpa using h
      rw [setSide, if_pos hq, ← hqs, ← h2]
    · have hf : (q.1 == sym) = false := by simpa using hq
      unfold findSide at h
      rw [List.find?_cons, hf] at h
      rw [setSide, if_neg hq, ih h]

/-- setSide membership when the keys are distinct: an entry of the result is
the written pair or an old entry with a different key. -/
theorem mem_setSide_nodup {m : List (String × SideLevels)} {sym : String} {v : SideLevels}
    (hnd : (m.map Prod.fst).Nodup) :
    ∀ p ∈ setSide m sym v, p = (sym, v) ∨ (p ∈ m ∧ p.1 ≠ sym) := by
  induction m with
  | nil => intro p hp; simp [setSide] at hp; left; exact hp
  | cons q m ih =>
    intro p hp
    have hnd' : (m.map Prod.fst).Nodup := (List.nodup_cons.mp hnd).2
    have hqnotin : q.1 ∉ m.map Prod.fst := (List.nodup_cons.mp hnd).1
    by_cases h : (q.1 == sym) = true
    · have hqs : q.1 = sym := by simpa using h
      rw [setSide, if_pos h] at hp
      rcases List.mem_cons.mp hp with hp | hp
      · left; exact hp
      · right
        refine ⟨List.mem_cons_of_mem _ hp, ?_⟩
        intro hps
        exact hqnotin (hqs ▸ hps ▸ List.mem_map_of_mem Prod.fst hp)
    · rw [setSide, if_neg h] at hp
      rcases List.mem_cons.mp hp with hp | hp
      · right
        refine ⟨hp ▸ List.mem_cons_self _ _, ?_⟩
        intro hps
        refine h ?_
        rw [← hp] at *
        simp [hps]
      · rcases ih hnd' p hp with h' | ⟨h1, h2⟩
        · left; exact h'
        · right; exact ⟨List.mem_cons_of_mem _ h1, h2⟩

/-- Reading the written position of List.set. -/
theorem levelGet_set_self {levels : List Level} {lid : Nat} {L' : Level}
    (h : lid < levels.length) :
    levelGet (levels.set lid L') lid = L' := by
  unfold levelGet
  rw [List.getD_eq_getElem _ _ (by simpa using h)]
  simp

/-- Reading another position of List.set. -/
theorem levelGet_set_ne {levels : List Level} {lid lid' : Nat} {L' : Level}
    (h : lid' ≠ lid) :
    levelGet (levels.set lid L') lid' = levelGet levels lid' := by
  unfold levelGet List.getD
  rw [List.get?_eq_getElem?, List.get?_eq_getElem?, List.getElem?_set_ne (by omega)]

/-- List.set with a level of the same price preserves every price read. -/
theorem levelGet_set_price {levels : List Level} {lid : Nat} {L' : Level}
    (hp : L'.price = (levelGet levels lid).price) (lid' : Nat) :
    (levelGet (levels.set lid L') lid').price = (levelGet levels lid').price := by
  by_cases h : lid' = lid
  · subst h
    by_cases hlt : lid' < levels.length
    · rw [levelGet_set_self hlt, hp]
    · rw [List.set_eq_of_length_le (by omega)]
  · rw [levelGet_set_ne h]

/-- Reading a cell below the live length agrees with reading the live
prefix. -/
theorem cellGet_take_lt {l : List Nat} {n i : Nat} (hi : i < n) (hn : n ≤ l.length) :
    cellGet (l.take n) i = cellGet l i := by
  unfold cellGet
  rw [List.getD_eq_getElem (l.take n) 0 (by rw [List.length_take]; omega),
    List.getD_eq_getElem l 0 (by omega)]
  exact List.getElem_take l

/-- A live cell is a member of the live prefix. -/
theorem cellGet_mem_live {l : List Nat} {n i : Nat} (hi : i < n) (hn : n ≤ l.length) :
    cellGet l i ∈ liveCells l n := by
  rw [liveCells, ← cellGet_take_lt hi hn]
  exact cellGet_mem (by rw [List.length_take]; omega)

/-- A found entry is a member with the looked-up key. -/
theorem findSide_mem {m : List (String × SideLevels)} {sym : String} {v : SideLevels}
    (h : findSide m sym = some v) : (sym, v) ∈ m := by
  unfold findSide at h
  cases hf : m.find? (fun p => p.1 == sym) with
  | none => rw [hf] at h; simp at h
  | some p =>
    rw [hf] at h
    have hp := List.find?_some hf
    have hm := List.mem_of_find?_eq_some hf
    have h1 : p.1 = sym := by simpa using hp
    have h2 : p.2 = v := by simpa using h
    have : p = (sym, v) := by
      cases p
      simp_all
    exact this ▸ hm

/-- What a successful findLiveLevelIdx means. -/
theorem findLiveLevelIdx_some {levels : List Level} {sl : SideLevels} {price : Int} {i : Nat}
    (h : findLiveLevelIdx levels sl price = some i) :
    i < sl.levelsLen ∧ (levelGet levels (cellGet sl.levelsBacking i)).price = price := by
  unfold findLiveLevelIdx at h
  have hp := List.find?_some h
  have hm := List.mem_of_find?_eq_some h
  refine ⟨by simpa using hm, by simpa using hp⟩

/-- Earlier scan positions of a successful findLiveLevelIdx do not match. -/
theorem findLiveLevelIdx_earlier {levels : List Level} {sl : SideLevels} {price : Int} {i : Nat}
    (h : findLiveLevelIdx levels sl price = some i) :
    ∀ k < i, (levelGet levels (cellGet sl.levelsBacking k)).price ≠ price := by
  intro k hk
  unfold findLiveLevelIdx at h
  rw [List.find?_eq_some_iff_getElem] at h
  obtain ⟨-, i', hi', hib, hprior⟩ := h
  rw [List.getElem_range] at hib
  subst hib
  have hk' := hprior k (by omega)
  rw [List.getElem_range] at hk'
  intro hceq
  simp [hceq] at hk' 

/-- A level with at least one order cell determines its side and symbol key:
two entries referencing it agree. -/
theorem level_owner_unique {heap : Nat → Option Order} {levels : List Level}
    {m1 m2 : List (String × SideLevels)} {sd1 sd2 : Side}
    (h1 : SideOK heap levels m1 sd1) (h2 : SideOK heap levels m2 sd2)
    {p1 p2 : String × SideLevels} (hp1 : p1 ∈ m1) (hp2 : p2 ∈ m2) {lid : Nat}
    (hl1 : lid ∈ p1.2.levelsBacking) (hl2 : lid ∈ p2.2.levelsBacking)
    {oid : Nat} (hoid : oid ∈ (levelGet levels lid).ordersBacking) :
    sd1 = sd2 ∧ p1.1 = p2.1 := by
  obtain ⟨-, ho1⟩ := h1 p1 hp1 lid hl1
  obtain ⟨-, ho2⟩ := h2 p2 hp2 lid hl2
  obtain ⟨o, hh1, -, hsym1, hside1, -, -⟩ := ho1 oid hoid
  obtain ⟨o', hh2, -, hsym2, hside2, -, -⟩ := ho2 oid hoid
  have heq : o = o' := by rw [hh1] at hh2; injection hh2
  subst heq
  exact ⟨hside1 ▸ hside2.symm ▸ rfl, hsym1 ▸ hsym2.symm ▸ rfl⟩

/-- SideOK is preserved by replacing a level with one holding a subset of
its order cells at the same price. -/
theorem SideOK_set_levels {heap : Nat → Option Order} {levels : List Level}
    {m : List (String × SideLevels)} {sd : Side}
    (hs : SideOK heap levels m sd) {lid : Nat} {L' : Level}
    (hsub : ∀ oid ∈ L'.ordersBacking, oid ∈ (levelGet levels lid).ordersBacking)
    (hp : L'.price = (levelGet levels lid).price) :
    SideOK heap (levels.set lid L') m sd := by
  intro p hp' lid' hl'
  obtain ⟨hlt, ho⟩ := hs p hp' lid' hl'
  refine ⟨by simpa using hlt, ?_⟩
  intro oid hoid
  by_cases he : lid' = lid
  · subst he
    by_cases hlen : lid' < levels.length
    · rw [levelGet_set_self hlen] at hoid ⊢
      obtain ⟨o, h1, h2, h3, h4, h5, h6⟩ := ho oid (hsub oid hoid)
      exact ⟨o, h1, h2, h3, h4, h5, by rw [hp]; exact h6⟩
    · rw [List.set_eq_of_length_le (by omega)] at hoid ⊢
      exact ho oid hoid
  · rw [levelGet_set_ne he] at hoid ⊢
    exact ho oid hoid

/-- SideOK is preserved by mutating a heap object in place without changing
its identity fields. -/
theorem SideOK_heapSet {heap : Nat → Option Order} {levels : List Level}
    {m : List (String × SideLevels)} {sd : Side}
    (hs : SideOK heap levels m sd) {o o' : Order}
    (ho : heap o'.orderID = some o)
    (h1 : o'.symbol = o.symbol) (h2 : o'.side = o.side) (h3 : o'.otype = o.otype)
    (h4 : o'.price = o.price) :
    SideOK (heapSet heap o') levels m sd := by
  intro p hp lid hl
  obtain ⟨hlt, hcells⟩ := hs p hp lid hl
  refine ⟨hlt, ?_⟩
  intro oid hoid
  obtain ⟨w, hw1, hw2, hw3, hw4, hw5, hw6⟩ := hcells oid hoid
  by_cases he : oid = o'.orderID
  · subst he
    have hwo : w = o := by rw [hw1] at ho; injection ho
    subst hwo
    exact ⟨o', by simp [heapSet], rfl, h1.trans hw3, h2.trans hw4, h3.trans hw5, h4.trans hw6⟩
  · exact ⟨w, by simpa [heapSet, he] using hw1, hw2, hw3, hw4, hw5, hw6⟩

/-- LiveOK is preserved by replacing a level with one of the same price that
is still nonempty, in bounds and live-distinct. -/
theorem LiveOK_set_levels {levels : List Level} {m : List (String × SideLevels)}
    (hl : LiveOK levels m) {lid : Nat} {L' : Level}
    (hp : L'.price = (levelGet levels lid).price)
    (hlen : L'.ordersLen ≠ 0)
    (hbound : L'.ordersLen ≤ L'.ordersBacking.length)
    (hnodup : (liveCells L'.ordersBacking L'.ordersLen).Nodup) :
    LiveOK (levels.set lid L') m := by
  intro p hpm
  obtain ⟨h1, h2, h3⟩ := hl p hpm
  refine ⟨h1, ?_, ?_⟩
  · have : (liveCells p.2.levelsBacking p.2.levelsLen).map
        (fun lid' => (levelGet (levels.set lid L') lid').price)
      = (liveCells p.2.levelsBacking p.2.levelsLen).map
        (fun lid' => (levelGet levels lid').price) :=
      List.map_congr_left (fun lid' _ => levelGet_set_price hp lid')
    rw [this]
    exact h2
  · intro lid' hl'
    by_cases he : lid' = lid
    · subst he
      by_cases hlt : lid' < levels.length
      · rw [levelGet_set_self hlt]
        exact ⟨hlen, hbound, hnodup⟩
      · rw [List.set_eq_of_length_le (by omega)]
        exact h3 lid' hl'
    · rw [levelGet_set_ne he]
      exact h3 lid' hl'

/-- Reading a level in bounds yields a member. -/
theorem levelGet_mem {levels : List Level} {lid : Nat} (h : lid < levels.length) :
    levelGet levels lid ∈ levels := by
  unfold levelGet
  rw [List.getD_eq_getElem _ _ h]
  exact List.getElem_mem h

/-- Reading a level out of bounds yields the default (empty) level. -/
theorem levelGet_default {levels : List Level} {lid : Nat} (h : levels.length ≤ lid) :
    levelGet levels lid = default := by
  unfold levelGet
  exact List.getD_eq_default _ _ (by omega)

/-- Order-cell bound survives replacing a level by one with a subset of its
cells. -/
theorem cellBound_set {s : EngineState} (hwf : WF s) {lid : Nat} {L' : Level}
    (hsub : ∀ oid ∈ L'.ordersBacking, oid ∈ (levelGet s.levels lid).ordersBacking) :
    ∀ L ∈ s.levels.set lid L', ∀ oid ∈ L.ordersBacking, oid < s.nextOrderID := by
  intro L hL oid hoid
  rcases List.mem_or_eq_of_mem_set hL with hL | hL
  · exact hwf.cellBound L hL oid hoid
  · subst hL
    by_cases hlt : lid < s.levels.length
    · exact hwf.cellBound _ (levelGet_mem hlt) oid (hsub oid hoid)
    · have := hsub oid hoid
      rw [levelGet_default (by omega)] at this
      simp [default] at this

/-- WF is preserved by replacing one level in place with a nonempty shrunken
level of the same price (removeFromOrderBook when the level stays, and the
resting-order mutation pattern of matching). -/
theorem remove_set_WF {s : EngineState} (hwf : WF s) {lid : Nat} {L' : Level}
    (hp : L'.price = (levelGet s.levels lid).price)
    (hsub : ∀ oid ∈ L'.ordersBacking, oid ∈ (levelGet s.levels lid).ordersBacking)
    (hlen : L'.ordersLen ≠ 0)
    (hbound : L'.ordersLen ≤ L'.ordersBacking.length)
    (hnodup : (liveCells L'.ordersBacking L'.ordersLen).Nodup) :
    WF { s with levels := s.levels.set lid L' } :=
  { heapKey := hwf.heapKey
    cellBound := cellBound_set hwf hsub
    levelsBound := by
      intro L hL
      rcases List.mem_or_eq_of_mem_set hL with h | h
      · exact hwf.levelsBound L h
      · exact h ▸ hbound
    bidsOK := SideOK_set_levels hwf.bidsOK hsub hp
    asksOK := SideOK_set_levels hwf.asksOK hsub hp
    bidsKeys := hwf.bidsKeys
    asksKeys := hwf.asksKeys
    bidsLive := LiveOK_set_levels hwf.bidsLive hp hlen hbound hnodup
    asksLive := LiveOK_set_levels hwf.asksLive hp hlen hbound hnodup
    dbIDs := hwf.dbIDs
    dbHeap := hwf.dbHeap
    dbMarket := hwf.dbMarket }

/-- setSide keys are unchanged when the key was already present. -/
theorem keys_setSide_found {m : List (String × SideLevels)} {sym : String} {v w : SideLevels}
    (hfs : findSide m sym = some w) :
    (setSide m sym v).map Prod.fst = m.map Prod.fst := by
  rcases keys_setSide m sym v with h | ⟨h, hn⟩
  · exact h
  · rw [hfs] at hn
    simp at hn

/-- SideOK survives the emptied-level removal: the level shrinks to a subset
of its cells at the same price, and the own side entry shrinks to a subset
of its level cells. -/
theorem SideOK_remove_own {heap : Nat → Option Order} {levels : List Level}
    {m : List (String × SideLevels)} {sd : Side}
    (hs : SideOK heap levels m sd) {sym : String} {sl : SideLevels}
    (hfs : findSide m sym = some sl) {lid : Nat} {L' : Level}
    (hsub : ∀ oid ∈ L'.ordersBacking, oid ∈ (levelGet levels lid).ordersBacking)
    (hp : L'.price = (levelGet levels lid).price) {sl' : SideLevels}
    (hsl' : ∀ x ∈ sl'.levelsBacking, x ∈ sl.levelsBacking) :
    SideOK heap (levels.set lid L') (setSide m sym sl') sd := by
  have base := SideOK_set_levels hs hsub hp
  intro p hpm lid' hl'
  rcases mem_setSide p hpm with hpe | hpm2
  · subst hpe
    exact base (sym, sl) (findSide_mem hfs) lid' (hsl' lid' hl')
  · exact base p hpm2 lid' hl'

/-- LiveOK of the own side after dropping an emptied level from its live
prefix: the dead level leaves the live list and the surviving levels keep
their prices and contents because the removed level cell appears in no
other live list. -/
theorem LiveOK_remove_own {heap : Nat → Option Order} {levels : List Level}
    {m : List (String × SideLevels)} {sd : Side}
    (hs : SideOK heap levels m sd)
    (hk : (m.map Prod.fst).Nodup)
    (hl : LiveOK levels m)
    {sym : String} {sl : SideLevels} (hfs : findSide m sym = some sl)
    {i : Nat} (hi : i < sl.levelsLen)
    {L' : Level} (hp : L'.price = (levelGet levels (cellGet sl.levelsBacking i)).price) :
    LiveOK (levels.set (cellGet sl.levelsBacking i) L')
      (setSide m sym
        { levelsBacking := shiftRemove sl.levelsBacking sl.levelsLen i,
          levelsLen := sl.levelsLen - 1 }) := by
  have hmemsl : (sym, sl) ∈ m := findSide_mem hfs
  obtain ⟨hlenB0, hprN, hliveL⟩ := hl (sym, sl) hmemsl
  have hlenB : sl.levelsLen ≤ sl.levelsBacking.length := hlenB0
  have hlidlive : cellGet sl.levelsBacking i ∈ liveCells sl.levelsBacking sl.levelsLen :=
    cellGet_mem_live hi hlenB
  obtain ⟨hLne, hLb, -⟩ := hliveL _ hlidlive
  have hoid0 : cellGet (levelGet levels (cellGet sl.levelsBacking i)).ordersBacking 0
      ∈ (levelGet levels (cellGet sl.levelsBacking i)).ordersBacking :=
    cellGet_mem (by omega)
  have hdec : liveCells sl.levelsBacking sl.levelsLen
      = sl.levelsBacking.take i ++ cellGet sl.levelsBacking i ::
        (sl.levelsBacking.drop (i + 1)).take (sl.levelsLen - i - 1) :=
    take_eq_cons_middle hi hlenB
  have hdec2 : liveCells (shiftRemove sl.levelsBacking sl.levelsLen i) (sl.levelsLen - 1)
      = sl.levelsBacking.take i ++ (sl.levelsBacking.drop (i + 1)).take (sl.levelsLen - i - 1) :=
    take_shiftRemove hi hlenB
  have hmapsOld : ((sl.levelsBacking.take i).map (fun lid => (levelGet levels lid).price)
      ++ (levelGet levels (cellGet sl.levelsBacking i)).price
        :: ((sl.levelsBacking.drop (i + 1)).take (sl.levelsLen - i - 1)).map
          (fun lid => (levelGet levels lid).price)).Nodup := by
    have h0 : ((liveCells sl.levelsBacking sl.levelsLen).map
        (fun lid => (levelGet levels lid).price)).Nodup := hprN
    rw [hdec, List.map_append, List.map_cons] at h0
    exact h0
  obtain ⟨hnotin, hrest⟩ := List.nodup_cons.mp (List.nodup_middle.mp hmapsOld)
  intro p hpm2
  rcases mem_setSide_nodup hk p hpm2 with hpe | ⟨hpm, hkey⟩
  · subst hpe
    dsimp only
    refine ⟨?_, ?_, ?_⟩
    · rw [shiftRemove_length hi hlenB]
      omega
    · rw [hdec2]
      have hmape : ((sl.levelsBacking.take i
            ++ (sl.levelsBacking.drop (i + 1)).take (sl.levelsLen - i - 1)).map
          (fun lid => (levelGet (levels.set (cellGet sl.levelsBacking i) L') lid).price))
          = ((sl.levelsBacking.take i
            ++ (sl.levelsBacking.drop (i + 1)).take (sl.levelsLen - i - 1)).map
          (fun lid => (levelGet levels lid).price)) :=
        List.map_congr_left (fun lid _ => levelGet_set_price hp lid)
      rw [hmape, List.map_append]
      exact hrest
    · intro lid2 hl2
      rw [hdec2] at hl2
      have hne : lid2 ≠ cellGet sl.levelsBacking i := by
        intro he
        refine hnotin ?_
        rw [← List.map_append]
        have hmem2 : cellGet sl.levelsBacking i ∈ sl.levelsBacking.take i
            ++ (sl.levelsBacking.drop (i + 1)).take (sl.levelsLen - i - 1) := he ▸ hl2
        exact List.mem_map_of_mem _ hmem2
      rw [levelGet_set_ne hne]
      refine hliveL lid2 ?_
      rw [hdec]
      rcases List.mem_append.mp hl2 with h | h
      · exact List.mem_append.mpr (Or.inl h)
      · exact List.mem_append.mpr (Or.inr (List.mem_cons_of_mem _ h))
  · obtain ⟨b1, b2, b3⟩ := hl p hpm
    refine ⟨b1, ?_, ?_⟩
    · have hmape : ((liveCells p.2.levelsBacking p.2.levelsLen).map
          (fun lid => (levelGet (levels.set (cellGet sl.levelsBacking i) L') lid).price))
          = ((liveCells p.2.levelsBacking p.2.levelsLen).map
          (fun lid => (levelGet levels lid).price)) :=
        List.map_congr_left (fun lid _ => levelGet_set_price hp lid)
      rw [hmape]
      exact b2
    · intro lid2 hl2
      have hne : lid2 ≠ cellGet sl.levelsBacking i := by
        intro he
        subst he
        have hcross := level_owner_unique hs hs hpm hmemsl
          (liveCells_subset _ hl2) (liveCells_subset _ hlidlive) hoid0
        exact hkey hcross.2
      rw [levelGet_set_ne hne]
      exact b3 lid2 hl2

/-- LiveOK of the opposite side when the own side drops an emptied level:
the mutated level cell appears on no live list of the other side, because a
nonempty level has a unique owning side. -/
theorem LiveOK_remove_oth {heap : Nat → Option Order} {levels : List Level}
    {mo mx : List (String × SideLevels)} {sdo sdx : Side}
    (hso : SideOK heap levels mo sdo) (hsx : SideOK heap levels mx sdx)
    (hlo : LiveOK levels mo) (hlx : LiveOK levels mx)
    (hsd : sdo ≠ sdx)
    {sym : String} {sl : SideLevels} (hfs : findSide mo sym = some sl)
    {i : Nat} (hi : i < sl.levelsLen)
    {L' : Level} (hp : L'.price = (levelGet levels (cellGet sl.levelsBacking i)).price) :
    LiveOK (levels.set (cellGet sl.levelsBacking i) L') mx := by
  have hmemsl : (sym, sl) ∈ mo := findSide_mem hfs
  obtain ⟨hlenB, -, hliveL⟩ := hlo (sym, sl) hmemsl
  have hlidlive : cellGet sl.levelsBacking i ∈ liveCells sl.levelsBacking sl.levelsLen :=
    cellGet_mem_live hi hlenB
  obtain ⟨hLne, hLb, -⟩ := hliveL _ hlidlive
  have hoid0 : cellGet (levelGet levels (cellGet sl.levelsBacking i)).ordersBacking 0
      ∈ (levelGet levels (cellGet sl.levelsBacking i)).ordersBacking :=
    cellGet_mem (by omega)
  intro p hpm
  obtain ⟨b1, b2, b3⟩ := hlx p hpm
  refine ⟨b1, ?_, ?_⟩
  · have hmape : ((liveCells p.2.levelsBacking p.2.levelsLen).map
        (fun lid => (levelGet (levels.set (cellGet sl.levelsBacking i) L') lid).price))
        = ((liveCells p.2.levelsBacking p.2.levelsLen).map
        (fun lid => (levelGet levels lid).price)) :=
      List.map_congr_left (fun lid _ => levelGet_set_price hp lid)
    rw [hmape]
    exact b2
  · intro lid2 hl2
    have hne : lid2 ≠ cellGet sl.levelsBacking i := by
      intro he
      subst he
      have hcross := level_owner_unique hsx hso hpm hmemsl
        (liveCells_subset _ hl2) (liveCells_subset _ hlidlive) hoid0
      exact hsd hcross.1.symm
    rw [levelGet_set_ne hne]
    exact b3 lid2 hl2

/-- WF is preserved by the emptied-level branch of removeFromOrderBook on
the ask side. -/
theorem remove_empty_WF_asks {s : EngineState} (hwf : WF s) {sym : String} {sl : SideLevels}
    (hfs : findSide s.asks sym = some sl) {i : Nat} (hi : i < sl.levelsLen)
    {L' : Level}
    (hp : L'.price = (levelGet s.levels (cellGet sl.levelsBacking i)).price)
    (hsub : ∀ oid ∈ L'.ordersBacking,
      oid ∈ (levelGet s.levels (cellGet sl.levelsBacking i)).ordersBacking)
    (hLb : L'.ordersLen ≤ L'.ordersBacking.length) :
    WF { s with
      levels := s.levels.set (cellGet sl.levelsBacking i) L',
      asks := setSide s.asks sym
        { levelsBacking := shiftRemove sl.levelsBacking sl.levelsLen i,
          levelsLen := sl.levelsLen - 1 } } :=
  { heapKey := hwf.heapKey
    cellBound := cellBound_set hwf hsub
    levelsBound := by
      intro L hL
      rcases List.mem_or_eq_of_mem_set hL with h | h
      · exact hwf.levelsBound L h
      · exact h ▸ hLb
    bidsOK := SideOK_set_levels hwf.bidsOK hsub hp
    asksOK := SideOK_remove_own hwf.asksOK hfs hsub hp (fun x hx => shiftRemove_subset x hx)
    bidsKeys := hwf.bidsKeys
    asksKeys := by
      rw [keys_setSide_found hfs]
      exact hwf.asksKeys
    bidsLive := LiveOK_remove_oth hwf.asksOK hwf.bidsOK hwf.asksLive hwf.bidsLive
      (fun h => Side.noConfusion h) hfs hi hp
    asksLive := LiveOK_remove_own hwf.asksOK hwf.asksKeys hwf.asksLive hfs hi hp
    dbIDs := hwf.dbIDs
    dbHeap := hwf.dbHeap
    dbMarket := hwf.dbMarket }

/-- WF is preserved by the emptied-level branch of removeFromOrderBook on
the bid side. -/
theorem remove_empty_WF_bids {s : EngineState} (hwf : WF s) {sym : String} {sl : SideLevels}
    (hfs : findSide s.bids sym = some sl) {i : Nat} (hi : i < sl.levelsLen)
    {L' : Level}
    (hp : L'.price = (levelGet s.levels (cellGet sl.levelsBacking i)).price)
    (hsub : ∀ oid ∈ L'.ordersBacking,
      oid ∈ (levelGet s.levels (cellGet sl.levelsBacking i)).ordersBacking)
    (hLb : L'.ordersLen ≤ L'.ordersBacking.length) :
    WF { s with
      levels := s.levels.set (cellGet sl.levelsBacking i) L',
      bids := setSide s.bids sym
        { levelsBacking := shiftRemove sl.levelsBacking sl.levelsLen i,
          levelsLen := sl.levelsLen - 1 } } :=
  { heapKey := hwf.heapKey
    cellBound := cellBound_set hwf hsub
    levelsBound := by
      intro L hL
      rcases List.mem_or_eq_of_mem_set hL with h | h
      · exact hwf.levelsBound L h
      · exact h ▸ hLb
    bidsOK := SideOK_remove_own hwf.bidsOK hfs hsub hp (fun x hx => shiftRemove_subset x hx)
    asksOK := SideOK_set_levels hwf.asksOK hsub hp
    bidsKeys := by
      rw [keys_setSide_found hfs]
      exact hwf.bidsKeys
    asksKeys := hwf.asksKeys
    bidsLive := LiveOK_remove_own hwf.bidsOK hwf.bidsKeys hwf.bidsLive hfs hi hp
    asksLive := LiveOK_remove_oth hwf.bidsOK hwf.asksOK hwf.bidsLive hwf.asksLive
      (fun h => Side.noConfusion h) hfs hi hp
    dbIDs := hwf.dbIDs
    dbHeap := hwf.dbHeap
    dbMarket := hwf.dbMarket }


/-- removeFromOrderBook preserves the state invariant: the touched level
shrinks to a same-price subset, and an emptied level leaves its side's live
list. -/
theorem removeFromOrderBook_WF {s : EngineState} (hwf : WF s) (o : Order) :
    WF (removeFromOrderBook s o) := by
  simp only [removeFromOrderBook]
  by_cases hAsk : (o.side == Side.sell) = true
  · simp only [if_pos hAsk]
    split
    · exact hwf
    next sl hfs =>
      split
      next hfl =>
        rw [setSide_findSide_self hfs]
        exact hwf
      next i hfl =>
        split
        next hfo =>
          rw [setSide_findSide_self hfs]
          exact hwf
        next j hfo =>
          have hmem : (o.symbol, sl) ∈ s.asks := findSide_mem hfs
          obtain ⟨hslB0, -, hliveL⟩ := hwf.asksLive (o.symbol, sl) hmem
          have hslB : sl.levelsLen ≤ sl.levelsBacking.length := hslB0
          have hi : i < sl.levelsLen := (findLiveLevelIdx_some hfl).1
          obtain ⟨hLne, hLb, hLnd⟩ := hliveL (cellGet sl.levelsBacking i)
            (cellGet_mem_live hi hslB)
          have hj : j < (levelGet s.levels (cellGet sl.levelsBacking i)).ordersLen :=
            List.mem_range.mp (List.mem_of_find?_eq_some hfo)
          split
          next hEmpty =>
            exact remove_empty_WF_asks hwf hfs hi rfl
              (fun oid h => shiftRemove_subset oid h)
              (by dsimp only; rw [shiftRemove_length hj hLb]; omega)
          next hEmpty =>
            rw [setSide_findSide_self hfs]
            have hlen : (levelGet s.levels (cellGet sl.levelsBacking i)).ordersLen - 1 ≠ 0 := by
              simpa using hEmpty
            have hbound : (levelGet s.levels (cellGet sl.levelsBacking i)).ordersLen - 1
                ≤ (shiftRemove (levelGet s.levels (cellGet sl.levelsBacking i)).ordersBacking
                  (levelGet s.levels (cellGet sl.levelsBacking i)).ordersLen j).length := by
              rw [shiftRemove_length hj hLb]
              omega
            have hnodup : (liveCells
                (shiftRemove (levelGet s.levels (cellGet sl.levelsBacking i)).ordersBacking
                  (levelGet s.levels (cellGet sl.levelsBacking i)).ordersLen j)
                ((levelGet s.levels (cellGet sl.levelsBacking i)).ordersLen - 1)).Nodup :=
              List.Nodup.sublist (liveCells_shiftRemove_sublist hj hLb) hLnd
            exact remove_set_WF hwf rfl (fun oid h => shiftRemove_subset oid h)
              hlen hbound hnodup
  · simp only [if_neg hAsk]
    split
    · exact hwf
    next sl hfs =>
      split
      next hfl =>
        rw [setSide_findSide_self hfs]
        exact hwf
      next i hfl =>
        split
        next hfo =>
          rw [setSide_findSide_self hfs]
          exact hwf
        next j hfo =>
          have hmem : (o.symbol, sl) ∈ s.bids := findSide_mem hfs
          obtain ⟨hslB0, -, hliveL⟩ := hwf.bidsLive (o.symbol, sl) hmem
          have hslB : sl.levelsLen ≤ sl.levelsBacking.length := hslB0
          have hi : i < sl.levelsLen := (findLiveLevelIdx_some hfl).1
          obtain ⟨hLne, hLb, hLnd⟩ := hliveL (cellGet sl.levelsBacking i)
            (cellGet_mem_live hi hslB)
          have hj : j < (levelGet s.levels (cellGet sl.levelsBacking i)).ordersLen :=
            List.mem_range.mp (List.mem_of_find?_eq_some hfo)
          split
          next hEmpty =>
            exact remove_empty_WF_bids hwf hfs hi rfl
              (fun oid h => shiftRemove_subset oid h)
              (by dsimp only; rw [shiftRemove_length hj hLb]; omega)
          next hEmpty =>
            rw [setSide_findSide_self hfs]
            have hlen : (levelGet s.levels (cellGet sl.levelsBacking i)).ordersLen - 1 ≠ 0 := by
              simpa using hEmpty
            have hbound : (levelGet s.levels (cellGet sl.levelsBacking i)).ordersLen - 1
                ≤ (shiftRemove (levelGet s.levels (cellGet sl.levelsBacking i)).ordersBacking
                  (levelGet s.levels (cellGet sl.levelsBacking i)).ordersLen j).length := by
              rw [shiftRemove_length hj hLb]
              omega
            have hnodup : (liveCells
                (shiftRemove (levelGet s.levels (cellGet sl.levelsBacking i)).ordersBacking
                  (levelGet s.levels (cellGet sl.levelsBacking i)).ordersLen j)
                ((levelGet s.levels (cellGet sl.levelsBacking i)).ordersLen - 1)).Nodup :=
              List.Nodup.sublist (liveCells_shiftRemove_sublist hj hLb) hLnd
            exact remove_set_WF hwf rfl (fun oid h => shiftRemove_subset oid h)
              hlen hbound hnodup

/-- Every state descends from itself. -/
theorem Descends_self (s : EngineState) : Descends s s :=
  { core := fun _ => rfl
    nextID := rfl
    levLen := rfl
    price := fun _ => rfl
    cells := fun _ _ h => h
    backLen := fun _ => rfl
    dbEq := rfl
    bidsCells := fun _ _ h => h
    asksCells := fun _ _ h => h
    bidsLen := fun _ => rfl
    asksLen := fun _ => rfl }

/-- Descends is transitive. -/
theorem Descends_trans {a b c : EngineState} (h1 : Descends a b) (h2 : Descends b c) :
    Descends a c :=
  { core := fun i => (h1.core i).trans (h2.core i)
    nextID := h2.nextID.trans h1.nextID
    levLen := h2.levLen.trans h1.levLen
    price := fun lid => (h2.price lid).trans (h1.price lid)
    cells := fun lid oid ho => h1.cells lid oid (h2.cells lid oid ho)
    backLen := fun lid => (h2.backLen lid).trans (h1.backLen lid)
    dbEq := h2.dbEq.trans h1.dbEq
    bidsCells := fun sym x hx => h1.bidsCells sym x (h2.bidsCells sym x hx)
    asksCells := fun sym x hx => h1.asksCells sym x (h2.asksCells sym x hx)
    bidsLen := fun sym => (h2.bidsLen sym).trans (h1.bidsLen sym)
    asksLen := fun sym => (h2.asksLen sym).trans (h1.asksLen sym) }

/-- A step that only mutates heap objects in place, or counters outside the
book, descends. -/
theorem Descends_update {sB s t : EngineState} (hd : Descends sB s)
    (hh : coreAgree s.heap t.heap) (hl : t.levels = s.levels) (hb : t.bids = s.bids)
    (ha : t.asks = s.asks) (hdb : t.db = s.db) (hn : t.nextOrderID = s.nextOrderID) :
    Descends sB t :=
  { core := fun i => (hd.core i).trans (hh i)
    nextID := hn.trans hd.nextID
    levLen := by rw [hl]; exact hd.levLen
    price := by rw [hl]; exact hd.price
    cells := by rw [hl]; exact hd.cells
    backLen := by rw [hl]; exact hd.backLen
    dbEq := hdb.trans hd.dbEq
    bidsCells := by rw [hb]; exact hd.bidsCells
    asksCells := by rw [ha]; exact hd.asksCells
    bidsLen := by rw [hb]; exact hd.bidsLen
    asksLen := by rw [ha]; exact hd.asksLen }

/-- WF transport along field equalities; counters other than the id counter
may change freely and the id counter may grow. -/
theorem WF_of_eqs {s t : EngineState} (hwf : WF s)
    (hh : t.heap = s.heap) (hl : t.levels = s.levels) (hb : t.bids = s.bids)
    (ha : t.asks = s.asks) (hd : t.db = s.db) (hn : s.nextOrderID ≤ t.nextOrderID) : WF t :=
  { heapKey := by
      rw [hh]
      intro i o hio
      obtain ⟨h1, h2⟩ := hwf.heapKey i o hio
      exact ⟨h1, by omega⟩
    cellBound := by
      rw [hl]
      intro L hL oid ho
      have := hwf.cellBound L hL oid ho
      omega
    levelsBound := by rw [hl]; exact hwf.levelsBound
    bidsOK := by rw [hh, hl, hb]; exact hwf.bidsOK
    asksOK := by rw [hh, hl, ha]; exact hwf.asksOK
    bidsKeys := by rw [hb]; exact hwf.bidsKeys
    asksKeys := by rw [ha]; exact hwf.asksKeys
    bidsLive := by rw [hl, hb]; exact hwf.bidsLive
    asksLive := by rw [hl, ha]; exact hwf.asksLive
    dbIDs := by
      rw [hd]
      intro r hr
      have := hwf.dbIDs r hr
      omega
    dbHeap := by rw [hd, hh]; exact hwf.dbHeap
    dbMarket := by rw [hd]; exact hwf.dbMarket }

/-- Unpack core equality into field equalities. -/
theorem core_fields {a b : Order} (h : Order.core a = Order.core b) :
    a.orderID = b.orderID ∧ a.symbol = b.symbol ∧ a.side = b.side ∧ a.otype = b.otype ∧
    a.price = b.price ∧ a.initialQuantity = b.initialQuantity ∧ a.createdAt = b.createdAt := by
  unfold Order.core at h
  simp only [Prod.mk.injEq] at h
  exact h

/-- A core-preserving write to an existing heap object preserves WF. -/
theorem WF_heapMut {s : EngineState} (hwf : WF s) {r r0 : Order}
    (h0 : s.heap r.orderID = some r0)
    (hcore : Order.core r = Order.core r0) :
    WF { s with heap := heapSet s.heap r } := by
  obtain ⟨hid, hsym, hside, hty, hpr, hin, hcr⟩ := core_fields hcore
  exact
    { heapKey := by
        intro i o hio
        replace hio : heapSet s.heap r i = some o := hio
        show o.orderID = i ∧ i < s.nextOrderID
        by_cases he : i = r.orderID
        · subst he
          rw [show heapSet s.heap r r.orderID = some r from by simp [heapSet]] at hio
          injection hio with hio
          subst hio
          exact ⟨rfl, (hwf.heapKey _ _ h0).2⟩
        · have hio2 : s.heap i = some o := by simpa [heapSet, he] using hio
          exact hwf.heapKey i o hio2
      cellBound := hwf.cellBound
      levelsBound := hwf.levelsBound
      bidsOK := SideOK_heapSet hwf.bidsOK h0 hsym hside hty hpr
      asksOK := SideOK_heapSet hwf.asksOK h0 hsym hside hty hpr
      bidsKeys := hwf.bidsKeys
      asksKeys := hwf.asksKeys
      bidsLive := hwf.bidsLive
      asksLive := hwf.asksLive
      dbIDs := hwf.dbIDs
      dbHeap := by
        intro row hrow o hro
        replace hro : heapSet s.heap r row.orderID = some o := hro
        show row.otype = o.otype ∧ row.symbol = o.symbol ∧ row.side = o.side ∧
          row.price = o.price
        by_cases he : row.orderID = r.orderID
        · have hor : some r = some o := by
            rw [he] at hro
            simpa [heapSet] using hro
          injection hor with hor
          subst hor
          have h4 := hwf.dbHeap row hrow r0 (by rw [he]; exact h0)
          exact ⟨h4.1.trans hty.symm, h4.2.1.trans hsym.symm, h4.2.2.1.trans hside.symm,
            h4.2.2.2.trans hpr.symm⟩
        · have hro2 : s.heap row.orderID = some o := by simpa [heapSet, he] using hro
          exact hwf.dbHeap row hrow o hro2
      dbMarket := hwf.dbMarket }

/-- Core agreement across a core-preserving write to an existing object. -/
theorem coreAgree_heapSet {heap : Nat → Option Order} {r r0 : Order}
    (h0 : heap r.orderID = some r0)
    (hcore : Order.core r = Order.core r0) :
    coreAgree heap (heapSet heap r) := by
  intro i
  by_cases he : i = r.orderID
  · subst he
    rw [h0]
    simp [heapSet, hcore]
  · simp [heapSet, he]

/-- Membership in the orders table after updateOrder. -/
theorem mem_updateOrder {db : DB} {u : Order} :
    ∀ r ∈ (db.updateOrder u).orders, ∃ r0 ∈ db.orders,
      r = if (r0.orderID == u.orderID) = true then
        { r0 with remainingQuantity := u.remainingQuantity, status := u.status }
      else r0 := by
  intro r hr
  unfold DB.updateOrder at hr
  simp only [List.mem_map] at hr
  obtain ⟨r0, h1, h2⟩ := hr
  exact ⟨r0, h1, h2.symm⟩

/-- updateOrder preserves StagedOK when every row it can touch is the
incoming row or does not become an open market row. -/
theorem StagedOK_updateOrder {bound : Nat} {h0 : Nat → Option Order} {o2 u : Order} {st : DB}
    (h : StagedOK bound h0 o2 st)
    (hu : ∀ r ∈ st.orders, r.orderID = u.orderID → r.orderID ≠ o2.orderID →
      r.otype ≠ OrderType.market ∨ u.status ≠ OrderStatus.opened) :
    StagedOK bound h0 o2 (st.updateOrder u) := by
  intro r hr
  obtain ⟨r0, hr0, hre⟩ := mem_updateOrder r hr
  obtain ⟨b1, b2, b3, b4⟩ := h r0 hr0
  by_cases he : (r0.orderID == u.orderID) = true
  · rw [if_pos he] at hre
    subst hre
    refine ⟨b1, b2, b3, ?_⟩
    intro hne hmk
    rcases hu r0 hr0 (by simpa using he) hne with h2 | h2
    · exact absurd hmk h2
    · exact h2
  · rw [if_neg he] at hre
    subst hre
    exact ⟨b1, b2, b3, b4⟩

/-- saveTrade leaves the orders table unchanged. -/
theorem StagedOK_saveTrade {bound : Nat} {h0 : Nat → Option Order} {o2 : Order} {st : DB}
    (h : StagedOK bound h0 o2 st) (t : Trade) : StagedOK bound h0 o2 (st.saveTrade t) := h

/-- getSide of a present key. -/
theorem getSide_eq_of_findSide {m : List (String × SideLevels)} {sym : String} {v : SideLevels}
    (h : findSide m sym = some v) : getSide m sym = v := by
  unfold getSide
  rw [h]
  rfl

/-- getSide of an absent key is the empty slice. -/
theorem getSide_of_findSide_none {m : List (String × SideLevels)} {sym : String}
    (h : findSide m sym = none) : getSide m sym = ⟨[], 0⟩ := by
  unfold getSide
  rw [h]
  rfl

/-- When keys are distinct, findSide returns the member entry. -/
theorem findSide_eq_of_mem {m : List (String × SideLevels)} {sym : String} {v : SideLevels}
    (hnd : (m.map Prod.fst).Nodup) (hmem : (sym, v) ∈ m) : findSide m sym = some v := by
  induction m with
  | nil => cases hmem
  | cons q m ih =>
    have hnd2 : (m.map Prod.fst).Nodup := (List.nodup_cons.mp hnd).2
    have hq : q.1 ∉ m.map Prod.fst := (List.nodup_cons.mp hnd).1
    rcases List.mem_cons.mp hmem with h | h
    · subst h
      unfold findSide
      rw [List.find?_cons]
      have h1 : (((sym, v) : String × SideLevels).1 == sym) = true := by simp
      rw [h1]
      rfl
    · by_cases h1 : (q.1 == sym) = true
      · exfalso
        have h2 : q.1 = sym := by simpa using h1
        exact hq (h2 ▸ List.mem_map_of_mem Prod.fst h)
      · have hf : (q.1 == sym) = false := by simpa using h1
        unfold findSide
        rw [List.find?_cons, hf]
        exact ih hnd2 h

/-- List.set with a cell-subset level keeps every cell read a cell. -/
theorem levelGet_set_cells {levels : List Level} {lid : Nat} {L2 : Level}
    (hsub : ∀ oid ∈ L2.ordersBacking, oid ∈ (levelGet levels lid).ordersBacking)
    (lid2 : Nat) : ∀ oid ∈ (levelGet (levels.set lid L2) lid2).ordersBacking,
      oid ∈ (levelGet levels lid2).ordersBacking := by
  intro oid hoid
  by_cases h : lid2 = lid
  · subst h
    by_cases hlt : lid2 < levels.length
    · rw [levelGet_set_self hlt] at hoid
      exact hsub oid hoid
    · rw [List.set_eq_of_length_le (by omega)] at hoid
      exact hoid
  · rw [levelGet_set_ne h] at hoid
    exact hoid

/-- List.set with a backing of the same length keeps every backing length. -/
theorem levelGet_set_backLen {levels : List Level} {lid : Nat} {L2 : Level}
    (hlen : L2.ordersBacking.length = (levelGet levels lid).ordersBacking.length)
    (lid2 : Nat) :
    (levelGet (levels.set lid L2) lid2).ordersBacking.length
      = (levelGet levels lid2).ordersBacking.length := by
  by_cases h : lid2 = lid
  · subst h
    by_cases hlt : lid2 < levels.length
    · rw [levelGet_set_self hlt, hlen]
    · rw [List.set_eq_of_length_le (by omega)]
  · rw [levelGet_set_ne h]

/-- Replacing one level in place with a same-price cell-subset level of the
same backing length descends. -/
theorem Descends_set_level {s : EngineState} {lid : Nat} {L2 : Level}
    (hp : L2.price = (levelGet s.levels lid).price)
    (hsub : ∀ oid ∈ L2.ordersBacking, oid ∈ (levelGet s.levels lid).ordersBacking)
    (hlen : L2.ordersBacking.length = (levelGet s.levels lid).ordersBacking.length) :
    Descends s { s with levels := s.levels.set lid L2 } :=
  { core := fun _ => rfl
    nextID := rfl
    levLen := by simp
    price := fun lid2 => levelGet_set_price hp lid2
    cells := levelGet_set_cells hsub
    backLen := levelGet_set_backLen hlen
    dbEq := rfl
    bidsCells := fun _ _ h => h
    asksCells := fun _ _ h => h
    bidsLen := fun _ => rfl
    asksLen := fun _ => rfl }

/-- Cells of a side map shrink under setSide with a cell-subset slice. -/
theorem getSide_setSide_cells {m : List (String × SideLevels)} {sym : String}
    {v w : SideLevels} (hfs : findSide m sym = some w)
    (hsub : ∀ x ∈ v.levelsBacking, x ∈ w.levelsBacking) :
    ∀ sym2, ∀ x ∈ (getSide (setSide m sym v) sym2).levelsBacking,
      x ∈ (getSide m sym2).levelsBacking := by
  intro sym2 x hx
  by_cases he : sym2 = sym
  · subst he
    rw [getSide_setSide_self] at hx
    rw [getSide_eq_of_findSide hfs]
    exact hsub x hx
  · unfold getSide at hx ⊢
    rw [findSide_setSide_other _ _ _ _ he] at hx
    exact hx

/-- Side backing lengths are kept under setSide with a same-length slice. -/
theorem getSide_setSide_len {m : List (String × SideLevels)} {sym : String}
    {v w : SideLevels} (hfs : findSide m sym = some w)
    (hlen : v.levelsBacking.length = w.levelsBacking.length) :
    ∀ sym2, (getSide (setSide m sym v) sym2).levelsBacking.length
      = (getSide m sym2).levelsBacking.length := by
  intro sym2
  by_cases he : sym2 = sym
  · subst he
    rw [getSide_setSide_self, getSide_eq_of_findSide hfs, hlen]
  · unfold getSide
    rw [findSide_setSide_other _ _ _ _ he]

/-- removeFromOrderBook descends: it shrinks one level in place and possibly
shrinks one side slice in place. -/
theorem removeFromOrderBook_descends {s : EngineState} (hwf : WF s) (o : Order) :
    Descends s (removeFromOrderBook s o) := by
  simp only [removeFromOrderBook]
  by_cases hAsk : (o.side == Side.sell) = true
  · simp only [if_pos hAsk]
    split
    · exact Descends_self s
    next sl hfs =>
      split
      next hfl =>
        rw [setSide_findSide_self hfs]
        exact Descends_self s
      next i hfl =>
        split
        next hfo =>
          rw [setSide_findSide_self hfs]
          exact Descends_self s
        next j hfo =>
          have hmem : (o.symbol, sl) ∈ s.asks := findSide_mem hfs
          obtain ⟨hslB0, -, hliveL⟩ := hwf.asksLive (o.symbol, sl) hmem
          have hslB : sl.levelsLen ≤ sl.levelsBacking.length := hslB0
          have hi : i < sl.levelsLen := (findLiveLevelIdx_some hfl).1
          obtain ⟨hLne, hLb, hLnd⟩ := hliveL (cellGet sl.levelsBacking i)
            (cellGet_mem_live hi hslB)
          have hj : j < (levelGet s.levels (cellGet sl.levelsBacking i)).ordersLen :=
            List.mem_range.mp (List.mem_of_find?_eq_some hfo)
          split
          next hEmpty =>
            refine
              { core := fun _ => rfl
                nextID := rfl
                levLen := by simp
                price := ?_
                cells := ?_
                backLen := ?_
                dbEq := rfl
                bidsCells := fun _ _ h => h
                asksCells := getSide_setSide_cells hfs (fun x hx => shiftRemove_subset x hx)
                bidsLen := fun _ => rfl
                asksLen := getSide_setSide_len hfs (shiftRemove_length hi hslB) }
            · intro lid2
              apply levelGet_set_price
              rfl
            · intro lid2
              apply levelGet_set_cells
              exact fun oid h => shiftRemove_subset oid h
            · intro lid2
              apply levelGet_set_backLen
              exact shiftRemove_length hj hLb
          next hEmpty =>
            rw [setSide_findSide_self hfs]
            exact Descends_set_level rfl (fun oid h => shiftRemove_subset oid h)
              (shiftRemove_length hj hLb)
  · simp only [if_neg hAsk]
    split
    · exact Descends_self s
    next sl hfs =>
      split
      next hfl =>
        rw [setSide_findSide_self hfs]
        exact Descends_self s
      next i hfl =>
        split
        next hfo =>
          rw [setSide_findSide_self hfs]
          exact Descends_self s
        next j hfo =>
          have hmem : (o.symbol, sl) ∈ s.bids := findSide_mem hfs
          obtain ⟨hslB0, -, hliveL⟩ := hwf.bidsLive (o.symbol, sl) hmem
          have hslB : sl.levelsLen ≤ sl.levelsBacking.length := hslB0
          have hi : i < sl.levelsLen := (findLiveLevelIdx_some hfl).1
          obtain ⟨hLne, hLb, hLnd⟩ := hliveL (cellGet sl.levelsBacking i)
            (cellGet_mem_live hi hslB)
          have hj : j < (levelGet s.levels (cellGet sl.levelsBacking i)).ordersLen :=
            List.mem_range.mp (List.mem_of_find?_eq_some hfo)
          split
          next hEmpty =>
            refine
              { core := fun _ => rfl
                nextID := rfl
                levLen := by simp
                price := ?_
                cells := ?_
                backLen := ?_
                dbEq := rfl
                bidsCells := getSide_setSide_cells hfs (fun x hx => shiftRemove_subset x hx)
                asksCells := fun _ _ h => h
                bidsLen := getSide_setSide_len hfs (shiftRemove_length hi hslB)
                asksLen := fun _ => rfl }
            · intro lid2
              apply levelGet_set_price
              rfl
            · intro lid2
              apply levelGet_set_cells
              exact fun oid h => shiftRemove_subset oid h
            · intro lid2
              apply levelGet_set_backLen
              exact shiftRemove_length hj hLb
          next hEmpty =>
            rw [setSide_findSide_self hfs]
            exact Descends_set_level rfl (fun oid h => shiftRemove_subset oid h)
              (shiftRemove_length hj hLb)

/-- SideOK survives setSide with a cell-subset slice for a present key. -/
theorem SideOK_setSide_subset {heap : Nat → Option Order} {levels : List Level}
    {m : List (String × SideLevels)} {sd : Side}
    (hs : SideOK heap levels m sd) {sym : String} {w : SideLevels}
    (hfs : findSide m sym = some w) {v : SideLevels}
    (hsub : ∀ x ∈ v.levelsBacking, x ∈ w.levelsBacking) :
    SideOK heap levels (setSide m sym v) sd := by
  intro p hp lid hl
  rcases mem_setSide p hp with hpe | hpm
  · subst hpe
    exact hs (sym, w) (findSide_mem hfs) lid (hsub lid hl)
  · exact hs p hpm lid hl

/-- LiveOK survives setSide with a slice whose live prefix is a permutation
of the old one. -/
theorem LiveOK_setSide_perm {levels : List Level} {m : List (String × SideLevels)}
    (hl : LiveOK levels m) {sym : String} {w : SideLevels}
    (hfs : findSide m sym = some w) {v : SideLevels}
    (hperm : List.Perm (liveCells v.levelsBacking v.levelsLen)
      (liveCells w.levelsBacking w.levelsLen))
    (hbound : v.levelsLen ≤ v.levelsBacking.length) :
    LiveOK levels (setSide m sym v) := by
  intro p hp
  rcases mem_setSide p hp with hpe | hpm
  · subst hpe
    obtain ⟨b1, b2, b3⟩ := hl (sym, w) (findSide_mem hfs)
    refine ⟨hbound, ?_, ?_⟩
    · exact ((hperm.map _).nodup_iff).mpr b2
    · intro lid hlid
      exact b3 lid (hperm.mem_iff.mp hlid)
  · exact hl p hpm

/-- The live prefix after the in-place sort is the sorted live prefix, a
permutation of the old live prefix. -/
theorem live_sort_perm {b : List Nat} {len : Nat} (hlen : len ≤ b.length)
    (le : Nat → Nat → Bool) :
    List.Perm (liveCells (sortBy le (b.take len) ++ b.drop len) len) (liveCells b len) := by
  have hsl : (sortBy le (b.take len)).length = len := by
    rw [(sortBy_perm le _).length_eq, List.length_take]
    omega
  unfold liveCells
  rw [List.take_left' hsl]
  exact sortBy_perm le _

/-- The sorted backing array is still long enough for the live prefix. -/
theorem live_sort_bound {b : List Nat} {len : Nat} (hlen : len ≤ b.length)
    (le : Nat → Nat → Bool) :
    len ≤ (sortBy le (b.take len) ++ b.drop len).length := by
  rw [List.length_append, (sortBy_perm le _).length_eq, List.length_take, List.length_drop]
  omega

/-- Every cell of the sorted backing array was a cell before. -/
theorem sort_backing_subset {b : List Nat} {len : Nat} (le : Nat → Nat → Bool) :
    ∀ x ∈ sortBy le (b.take len) ++ b.drop len, x ∈ b := by
  intro x hx
  rcases List.mem_append.mp hx with h | h
  · exact List.mem_of_mem_take ((sortBy_perm le _).mem_iff.mp h)
  · exact List.mem_of_mem_drop h

/-- The in-place sort of one side's live level prefix preserves WF. -/
theorem sortOppositeSide_WF {s : EngineState} (hwf : WF s) (sd : Side) (sym : String) :
    WF (sortOppositeSide s sd sym) := by
  simp only [sortOppositeSide]
  by_cases hob : (sd == Side.sell) = true
  · simp only [if_pos hob]
    split
    · exact hwf
    next sl hfs =>
      have hmem : (sym, sl) ∈ s.bids := findSide_mem hfs
      obtain ⟨hlenB0, -, -⟩ := hwf.bidsLive (sym, sl) hmem
      have hlenB : sl.levelsLen ≤ sl.levelsBacking.length := hlenB0
      refine
        { heapKey := hwf.heapKey
          cellBound := hwf.cellBound
          levelsBound := hwf.levelsBound
          bidsOK := ?_
          asksOK := hwf.asksOK
          bidsKeys := by rw [keys_setSide_found hfs]; exact hwf.bidsKeys
          asksKeys := hwf.asksKeys
          bidsLive := ?_
          asksLive := hwf.asksLive
          dbIDs := hwf.dbIDs
          dbHeap := hwf.dbHeap
          dbMarket := hwf.dbMarket }
      · apply SideOK_setSide_subset hwf.bidsOK hfs
        intro x hx
        exact sort_backing_subset _ x hx
      · apply LiveOK_setSide_perm hwf.bidsLive hfs
        · exact live_sort_perm hlenB _
        · exact live_sort_bound hlenB _
  · simp only [if_neg hob]
    split
    · exact hwf
    next sl hfs =>
      have hmem : (sym, sl) ∈ s.asks := findSide_mem hfs
      obtain ⟨hlenB0, -, -⟩ := hwf.asksLive (sym, sl) hmem
      have hlenB : sl.levelsLen ≤ sl.levelsBacking.length := hlenB0
      refine
        { heapKey := hwf.heapKey
          cellBound := hwf.cellBound
          levelsBound := hwf.levelsBound
          bidsOK := hwf.bidsOK
          asksOK := ?_
          bidsKeys := hwf.bidsKeys
          asksKeys := by rw [keys_setSide_found hfs]; exact hwf.asksKeys
          bidsLive := hwf.bidsLive
          asksLive := ?_
          dbIDs := hwf.dbIDs
          dbHeap := hwf.dbHeap
          dbMarket := hwf.dbMarket }
      · apply SideOK_setSide_subset hwf.asksOK hfs
        intro x hx
        exact sort_backing_subset _ x hx
      · apply LiveOK_setSide_perm hwf.asksLive hfs
        · exact live_sort_perm hlenB _
        · exact live_sort_bound hlenB _

/-- The sort touches only a side map: every other field is unchanged. -/
theorem sortOppositeSide_frame (s : EngineState) (sd : Side) (sym : String) :
    (sortOppositeSide s sd sym).heap = s.heap ∧
    (sortOppositeSide s sd sym).levels = s.levels ∧
    (sortOppositeSide s sd sym).db = s.db ∧
    (sortOppositeSide s sd sym).nextOrderID = s.nextOrderID ∧
    (sortOppositeSide s sd sym).nextTradeID = s.nextTradeID ∧
    (sortOppositeSide s sd sym).now = s.now ∧
    (sortOppositeSide s sd sym).opCount = s.opCount ∧
    (sortOppositeSide s sd sym).failAt = s.failAt := by
  simp only [sortOppositeSide]
  repeat' split
  all_goals exact ⟨rfl, rfl, rfl, rfl, rfl, rfl, rfl, rfl⟩

/-- Build TradeOK for a trade priced off a resting order r whose identity
agrees with a maker object in the base heap. -/
theorem TradeOK_mk {sB : EngineState} {order mkr r : Order} {rid : Nat}
    (hmkr : sB.heap rid = some mkr) (hmid : mkr.orderID = rid)
    (hmside : mkr.side = oppSideOf order.side) (hmty : mkr.otype = OrderType.limit)
    {pv : Int} (hmpr : mkr.price = ⟨pv, true⟩)
    (hrid : r.orderID = mkr.orderID) (hrpr : r.price = mkr.price)
    (t : Trade)
    (hprice : t.price = r.price.float64)
    (hids : (order.side = Side.buy ∧ t.buyOrderID = order.orderID ∧ t.sellOrderID = r.orderID)
      ∨ (order.side = Side.sell ∧ t.buyOrderID = r.orderID ∧ t.sellOrderID = order.orderID)) :
    TradeOK sB order t := by
  refine ⟨mkr, by rw [hmid]; exact hmkr, hmty, by rw [hmpr], ?_, ?_⟩
  · rw [hprice, hrpr]
  · rcases hids with ⟨h1, h2, h3⟩ | ⟨h1, h2, h3⟩
    · left
      refine ⟨h1, ?_, h2, h3.trans hrid⟩
      rw [hmside, h1]
      rfl
    · right
      refine ⟨h1, ?_, h2.trans hrid, h3⟩
      rw [hmside, h1]
      rfl

/-- The in-place mutation step of the inner matching loop: WF and Descends
survive writing a core-equal object back through a resting pointer. -/
theorem matchStep_state_WF {sB s : EngineState} (hwf : WF s) (hdes : Descends sB s)
    (r2 r : Order) (hsr : s.heap r2.orderID = some r)
    (hc2 : Order.core r2 = Order.core r) {a b c : Nat} :
    WF { s with heap := heapSet s.heap r2, nextTradeID := a, now := b, opCount := c } ∧
    Descends sB
      { s with heap := heapSet s.heap r2, nextTradeID := a, now := b, opCount := c } := by
  constructor
  · exact WF_of_eqs (WF_heapMut hwf hsr hc2) rfl rfl rfl rfl rfl (Nat.le_refl _)
  · exact Descends_update hdes (coreAgree_heapSet hsr hc2) rfl rfl rfl rfl rfl

/-- The mutation step followed by the unconditional removal. -/
theorem matchStep_removed {sB s : EngineState} (hwf : WF s) (hdes : Descends sB s)
    (r2 r : Order) (hsr : s.heap r2.orderID = some r)
    (hc2 : Order.core r2 = Order.core r) {a b c : Nat} :
    WF (removeFromOrderBook
      { s with heap := heapSet s.heap r2, nextTradeID := a, now := b, opCount := c } r2) ∧
    Descends sB (removeFromOrderBook
      { s with heap := heapSet s.heap r2, nextTradeID := a, now := b, opCount := c } r2) := by
  have h12 : WF { s with heap := heapSet s.heap r2, nextTradeID := a, now := b, opCount := c } ∧
      Descends sB
        { s with heap := heapSet s.heap r2, nextTradeID := a, now := b, opCount := c } :=
    matchStep_state_WF hwf hdes r2 r hsr hc2
  exact ⟨removeFromOrderBook_WF h12.1 r2,
    Descends_trans h12.2 (removeFromOrderBook_descends h12.1 r2)⟩

/-- The inner matching loop preserves WF, descends from the base state, and
emits only well-formed trades while keeping the staged rows well-formed. -/
theorem matchRestingLoop_WF (sB : EngineState) (order : Order) (lid : Nat)
    (hcov : ∀ oid ∈ (levelGet sB.levels lid).ordersBacking, ∃ mkr : Order,
      sB.heap oid = some mkr ∧ mkr.orderID = oid ∧ mkr.symbol = order.symbol ∧
      mkr.side = oppSideOf order.side ∧ mkr.otype = OrderType.limit ∧
      mkr.price = ⟨(levelGet sB.levels lid).price, true⟩)
    (k0 : Nat) (hk0 : k0 ≤ (levelGet sB.levels lid).ordersBacking.length) :
    ∀ fuel, fuel ≤ k0 → ∀ s acc, WF s → Descends sB s →
      (∀ t ∈ acc.trades, TradeOK sB order t) →
      StagedOK sB.nextOrderID sB.heap order acc.staged →
      WF (matchRestingLoop order lid k0 fuel s acc).1 ∧
      Descends sB (matchRestingLoop order lid k0 fuel s acc).1 ∧
      (∀ t ∈ (matchRestingLoop order lid k0 fuel s acc).2.1.trades, TradeOK sB order t) ∧
      StagedOK sB.nextOrderID sB.heap order
        (matchRestingLoop order lid k0 fuel s acc).2.1.staged := by
  intro fuel
  induction fuel with
  | zero =>
    intro _ s acc hwf hdes htr hst
    exact ⟨hwf, hdes, htr, hst⟩
  | succ n ih =>
    intro hfk s acc hwf hdes htr hst
    simp only [matchRestingLoop]
    split
    · exact ⟨hwf, hdes, htr, hst⟩
    · have hjb : k0 - (n + 1) < (levelGet s.levels lid).ordersBacking.length := by
        rw [hdes.backLen lid]
        omega
      have hmem : cellGet (levelGet s.levels lid).ordersBacking (k0 - (n + 1))
          ∈ (levelGet s.levels lid).ordersBacking := cellGet_mem hjb
      obtain ⟨mkr, hmkr, hmid, hmsym, hmside, hmty, hmpr⟩ :=
        hcov _ (hdes.cells lid _ hmem)
      have hcore0 := hdes.core (cellGet (levelGet s.levels lid).ordersBacking (k0 - (n + 1)))
      rw [hmkr] at hcore0
      cases hsr : s.heap (cellGet (levelGet s.levels lid).ordersBacking (k0 - (n + 1))) with
      | none =>
        rw [hsr] at hcore0
        simp at hcore0
      | some r =>
        rw [hsr] at hcore0
        simp only [Option.map] at hcore0
        injection hcore0 with hcore0
        obtain ⟨hrid, hrsym, hrside, hrty, hrpr, hrin, hrcr⟩ := core_fields hcore0.symm
        have hrg : heapGet s.heap (cellGet (levelGet s.levels lid).ordersBacking (k0 - (n + 1)))
            = r := by
          unfold heapGet
          rw [hsr]
          rfl
        have hsr2 : s.heap r.orderID = some r := by
          rw [hrid.trans hmid]
          exact hsr
        rw [hrg]
        split
        · -- a store failure aborts the loop after the in-place mutation
          split
          all_goals
            refine ⟨(matchStep_state_WF hwf hdes _ r ?_ ?_).1,
              (matchStep_state_WF hwf hdes _ r ?_ ?_).2, ?_, hst⟩
          all_goals try exact hsr2
          all_goals try rfl
          all_goals
            intro t ht
            rcases List.mem_append.mp ht with h | h
            · exact htr t h
            · have ht2 := List.mem_singleton.mp h
              subst ht2
              split
              next hc =>
                refine TradeOK_mk hmkr hmid hmside hmty hmpr hrid hrpr _ rfl ?_
                right
                exact ⟨by simpa using hc, rfl, rfl⟩
              next hc =>
                refine TradeOK_mk hmkr hmid hmside hmty hmpr hrid hrpr _ rfl ?_
                left
                refine ⟨?_, rfl, rfl⟩
                have hcf : (order.side == Side.sell) = false := by simpa using hc
                cases hoc : order.side with
                | buy => rfl
                | sell => rw [hoc] at hcf; simp at hcf
        · -- continue with the next resting order
          split
          all_goals refine ih (by omega) _ _ ?_ ?_ ?_ ?_
          all_goals try refine (matchStep_removed hwf hdes _ r ?_ ?_).1
          all_goals try refine (matchStep_removed hwf hdes _ r ?_ ?_).2
          all_goals try exact hsr2
          all_goals try rfl
          all_goals try
            (refine StagedOK_updateOrder hst ?_
             intro row hrow h1 h2
             left
             obtain ⟨-, -, b3, -⟩ := hst row hrow
             have h1b : row.orderID = r.orderID := h1
             have hmk2 : sB.heap row.orderID = some mkr := by
               rw [h1b.trans (hrid.trans hmid)]
               exact hmkr
             have hty2 := (b3 mkr hmk2).1
             rw [hty2, hmty]
             exact fun hx => OrderType.noConfusion hx)
          all_goals
            intro t ht
            rcases List.mem_append.mp ht with h | h
            · exact htr t h
            · have ht2 := List.mem_singleton.mp h
              subst ht2
              split
              next hc =>
                refine TradeOK_mk hmkr hmid hmside hmty hmpr hrid hrpr _ rfl ?_
                right
                exact ⟨by simpa using hc, rfl, rfl⟩
              next hc =>
                refine TradeOK_mk hmkr hmid hmside hmty hmpr hrid hrpr _ rfl ?_
                left
                refine ⟨?_, rfl, rfl⟩
                have hcf : (order.side == Side.sell) = false := by simpa using hc
                cases hoc : order.side with
                | buy => rfl
                | sell => rw [hoc] at hcf; simp at hcf

/-- The side map that rests orders of side sd satisfies SideOK for sd. -/
theorem ownSideMap_SideOK {s : EngineState} (hwf : WF s) (sd : Side) :
    SideOK s.heap s.levels (ownSideMap s sd) sd := by
  cases sd
  · exact hwf.bidsOK
  · exact hwf.asksOK

/-- The side map that rests orders of side sd satisfies LiveOK. -/
theorem ownSideMap_LiveOK {s : EngineState} (hwf : WF s) (sd : Side) :
    LiveOK s.levels (ownSideMap s sd) := by
  cases sd
  · exact hwf.bidsLive
  · exact hwf.asksLive

/-- Descends, read through ownSideMap: cells only shrink. -/
theorem Descends_ownCells {sB s : EngineState} (hd : Descends sB s) (sd : Side) :
    ∀ sym, ∀ x ∈ (getSide (ownSideMap s sd) sym).levelsBacking,
      x ∈ (getSide (ownSideMap sB sd) sym).levelsBacking := by
  cases sd
  · exact hd.bidsCells
  · exact hd.asksCells

/-- Descends, read through ownSideMap: backing lengths are kept. -/
theorem Descends_ownLen {sB s : EngineState} (hd : Descends sB s) (sd : Side) :
    ∀ sym, (getSide (ownSideMap s sd) sym).levelsBacking.length
      = (getSide (ownSideMap sB sd) sym).levelsBacking.length := by
  cases sd
  · exact hd.bidsLen
  · exact hd.asksLen

/-- The opposite-side read of the matching loops through ownSideMap. -/
theorem oppRead (s : EngineState) (order : Order) :
    (if (order.side == Side.sell) = true then getSide s.bids order.symbol
      else getSide s.asks order.symbol)
      = getSide (ownSideMap s (oppSideOf order.side)) order.symbol := by
  cases h : order.side <;> rfl

/-- A live slice is no longer than its backing array. -/
theorem getSide_len_le {s : EngineState} (hwf : WF s) (sd : Side) (sym : String) :
    (getSide (ownSideMap s sd) sym).levelsLen
      ≤ (getSide (ownSideMap s sd) sym).levelsBacking.length := by
  cases hfs : findSide (ownSideMap s sd) sym with
  | none =>
    rw [getSide_of_findSide_none hfs]
    exact Nat.le_refl 0
  | some sl =>
    rw [getSide_eq_of_findSide hfs]
    exact (ownSideMap_LiveOK hwf sd (sym, sl) (findSide_mem hfs)).1

/-- Any level's live length is bounded by its backing length. -/
theorem levelGet_bound {s : EngineState} (hwf : WF s) (lid : Nat) :
    (levelGet s.levels lid).ordersLen ≤ (levelGet s.levels lid).ordersBacking.length := by
  by_cases h : lid < s.levels.length
  · exact hwf.levelsBound _ (levelGet_mem h)
  · rw [levelGet_default (by omega)]
    exact Nat.le_refl 0

/-- TradeOK only reads the heap. -/
theorem TradeOK_heapEq {s1 s2 : EngineState} (h : s1.heap = s2.heap) {o : Order} {t : Trade}
    (ht : TradeOK s1 o t) : TradeOK s2 o t := by
  unfold TradeOK at ht ⊢
  rw [← h]
  exact ht

/-- Every order cell of the level an outer-loop iteration visits dereferences
in the base heap to a resting limit maker of the opposite side at the level
price. -/
theorem opp_cov {sB s : EngineState} (hwfB : WF sB) (hdes : Descends sB s)
    (order : Order) (i : Nat)
    (hin : i <
      (getSide (ownSideMap sB (oppSideOf order.side)) order.symbol).levelsBacking.length) :
    ∀ oid ∈ (levelGet sB.levels
        (cellGet (getSide (ownSideMap s (oppSideOf order.side)) order.symbol).levelsBacking
          i)).ordersBacking,
      ∃ mkr : Order, sB.heap oid = some mkr ∧ mkr.orderID = oid ∧
        mkr.symbol = order.symbol ∧
        mkr.side = oppSideOf order.side ∧ mkr.otype = OrderType.limit ∧
        mkr.price = ⟨(levelGet sB.levels
          (cellGet (getSide (ownSideMap s (oppSideOf order.side)) order.symbol).levelsBacking
            i)).price, true⟩ := by
  have hlen := Descends_ownLen hdes (oppSideOf order.side) order.symbol
  have hib : i <
      (getSide (ownSideMap s (oppSideOf order.side)) order.symbol).levelsBacking.length := by
    omega
  have hmem :
      cellGet (getSide (ownSideMap s (oppSideOf order.side)) order.symbol).levelsBacking i
      ∈ (getSide (ownSideMap s (oppSideOf order.side)) order.symbol).levelsBacking :=
    cellGet_mem hib
  have hmemB := Descends_ownCells hdes (oppSideOf order.side) order.symbol _ hmem
  cases hfs : findSide (ownSideMap sB (oppSideOf order.side)) order.symbol with
  | none =>
    rw [getSide_of_findSide_none hfs] at hmemB
    simp at hmemB
  | some sl =>
    rw [getSide_eq_of_findSide hfs] at hmemB
    obtain ⟨-, hcells⟩ := ownSideMap_SideOK hwfB (oppSideOf order.side)
      (order.symbol, sl) (findSide_mem hfs) _ hmemB
    intro oid hoid
    exact hcells oid hoid

/-- The limit outer loop preserves the matching invariant bundle. -/
theorem matchLevelsLoopLimit_WF (sB : EngineState) (hwfB : WF sB) (order : Order) (n0 : Nat)
    (hn0 : n0 ≤
      (getSide (ownSideMap sB (oppSideOf order.side)) order.symbol).levelsBacking.length) :
    ∀ fuel, fuel ≤ n0 → ∀ s acc, WF s → Descends sB s →
      (∀ t ∈ acc.trades, TradeOK sB order t) →
      StagedOK sB.nextOrderID sB.heap order acc.staged →
      WF (matchLevelsLoopLimit order n0 fuel s acc).1 ∧
      Descends sB (matchLevelsLoopLimit order n0 fuel s acc).1 ∧
      (∀ t ∈ (matchLevelsLoopLimit order n0 fuel s acc).2.1.trades, TradeOK sB order t) ∧
      StagedOK sB.nextOrderID sB.heap order
        (matchLevelsLoopLimit order n0 fuel s acc).2.1.staged := by
  intro fuel
  induction fuel with
  | zero =>
    intro _ s acc hwf hdes htr hst
    exact ⟨hwf, hdes, htr, hst⟩
  | succ n ih =>
    intro hfk s acc hwf hdes htr hst
    simp only [matchLevelsLoopLimit]
    rw [oppRead s order]
    split
    · exact ⟨hwf, hdes, htr, hst⟩
    · have hi : n0 - (n + 1) <
          (getSide (ownSideMap sB (oppSideOf order.side)) order.symbol).levelsBacking.length :=
        by omega
      have hcov := opp_cov hwfB hdes order (n0 - (n + 1)) hi
      have hk0b : (levelGet s.levels
            (cellGet (getSide (ownSideMap s (oppSideOf order.side)) order.symbol).levelsBacking
              (n0 - (n + 1)))).ordersLen
          ≤ (levelGet sB.levels
            (cellGet (getSide (ownSideMap s (oppSideOf order.side)) order.symbol).levelsBacking
              (n0 - (n + 1)))).ordersBacking.length := by
        rw [← hdes.backLen]
        exact levelGet_bound hwf _
      have hinner := matchRestingLoop_WF sB order _ hcov _ hk0b _ (Nat.le_refl _)
        s acc hwf hdes htr hst
      split
      · exact ih (by omega) s acc hwf hdes htr hst
      · split
        next s' acc' heq =>
          rw [heq] at hinner
          exact ih (by omega) s' acc' hinner.1 hinner.2.1 hinner.2.2.1 hinner.2.2.2
        next s' acc' heq =>
          rw [heq] at hinner
          exact hinner

/-- The market outer loop preserves the matching invariant bundle. -/
theorem matchLevelsLoopMarket_WF (sB : EngineState) (hwfB : WF sB) (order : Order) (n0 : Nat)
    (hn0 : n0 ≤
      (getSide (ownSideMap sB (oppSideOf order.side)) order.symbol).levelsBacking.length) :
    ∀ fuel, fuel ≤ n0 → ∀ s acc, WF s → Descends sB s →
      (∀ t ∈ acc.trades, TradeOK sB order t) →
      StagedOK sB.nextOrderID sB.heap order acc.staged →
      WF (matchLevelsLoopMarket order n0 fuel s acc).1 ∧
      Descends sB (matchLevelsLoopMarket order n0 fuel s acc).1 ∧
      (∀ t ∈ (matchLevelsLoopMarket order n0 fuel s acc).2.1.trades, TradeOK sB order t) ∧
      StagedOK sB.nextOrderID sB.heap order
        (matchLevelsLoopMarket order n0 fuel s acc).2.1.staged := by
  intro fuel
  induction fuel with
  | zero =>
    intro _ s acc hwf hdes htr hst
    exact ⟨hwf, hdes, htr, hst⟩
  | succ n ih =>
    intro hfk s acc hwf hdes htr hst
    simp only [matchLevelsLoopMarket]
    rw [oppRead s order]
    split
    · exact ⟨hwf, hdes, htr, hst⟩
    · have hi : n0 - (n + 1) <
          (getSide (ownSideMap sB (oppSideOf order.side)) order.symbol).levelsBacking.length :=
        by omega
      have hcov := opp_cov hwfB hdes order (n0 - (n + 1)) hi
      have hk0b : (levelGet s.levels
            (cellGet (getSide (ownSideMap s (oppSideOf order.side)) order.symbol).levelsBacking
              (n0 - (n + 1)))).ordersLen
          ≤ (levelGet sB.levels
            (cellGet (getSide (ownSideMap s (oppSideOf order.side)) order.symbol).levelsBacking
              (n0 - (n + 1)))).ordersBacking.length := by
        rw [← hdes.backLen]
        exact levelGet_bound hwf _
      have hinner := matchRestingLoop_WF sB order _ hcov _ hk0b _ (Nat.le_refl _)
        s acc hwf hdes htr hst
      split
      next s' acc' heq =>
        rw [heq] at hinner
        exact ih (by omega) s' acc' hinner.1 hinner.2.1 hinner.2.2.1 hinner.2.2.2
      next s' acc' heq =>
        rw [heq] at hinner
        exact hinner

/-- matchLimitOrder: WF is preserved and the result descends from the call
state; all trades are well-formed and the staged rows stay well-formed. -/
theorem matchLimitOrder_WF {s : EngineState} (hwf : WF s) (order : Order) (staged : DB)
    (hst : StagedOK s.nextOrderID s.heap order staged) :
    WF (matchLimitOrder s order staged).1 ∧
    coreAgree s.heap (matchLimitOrder s order staged).1.heap ∧
    (matchLimitOrder s order staged).1.nextOrderID = s.nextOrderID ∧
    (∀ lid, ∀ oid ∈ (levelGet (matchLimitOrder s order staged).1.levels lid).ordersBacking,
      oid ∈ (levelGet s.levels lid).ordersBacking) ∧
    (matchLimitOrder s order staged).1.levels.length = s.levels.length ∧
    (∀ t ∈ (matchLimitOrder s order staged).2.1.trades, TradeOK s order t) ∧
    StagedOK s.nextOrderID s.heap order (matchLimitOrder s order staged).2.1.staged := by
  have hfr := sortOppositeSide_frame s order.side order.symbol
  have hwfB : WF (sortOppositeSide s order.side order.symbol) :=
    sortOppositeSide_WF hwf order.side order.symbol
  have hst2 : StagedOK (sortOppositeSide s order.side order.symbol).nextOrderID
      (sortOppositeSide s order.side order.symbol).heap order staged := by
    rw [hfr.2.2.2.1, hfr.1]
    exact hst
  have hl := matchLevelsLoopLimit_WF (sortOppositeSide s order.side order.symbol) hwfB order
    (getSide (ownSideMap (sortOppositeSide s order.side order.symbol) (oppSideOf order.side))
      order.symbol).levelsLen
    (getSide_len_le hwfB (oppSideOf order.side) order.symbol)
    (getSide (ownSideMap (sortOppositeSide s order.side order.symbol) (oppSideOf order.side))
      order.symbol).levelsLen
    (Nat.le_refl _)
    (sortOppositeSide s order.side order.symbol)
    { trades := [], remainingQty := order.remainingQuantity, staged := staged }
    hwfB (Descends_self _) (fun t ht => absurd ht (List.not_mem_nil t)) hst2
  obtain ⟨w1, w2, w3, w4⟩ := hl
  have hgoal :
      matchLimitOrder s order staged
        = matchLevelsLoopLimit order
          (getSide (ownSideMap (sortOppositeSide s order.side order.symbol)
            (oppSideOf order.side)) order.symbol).levelsLen
          (getSide (ownSideMap (sortOppositeSide s order.side order.symbol)
            (oppSideOf order.side)) order.symbol).levelsLen
          (sortOppositeSide s order.side order.symbol)
          { trades := [], remainingQty := order.remainingQuantity, staged := staged } := by
    simp only [matchLimitOrder]
    rw [oppRead (sortOppositeSide s order.side order.symbol) order]
  rw [hgoal]
  refine ⟨w1, ?_, w2.nextID.trans hfr.2.2.2.1, ?_, ?_, ?_, ?_⟩
  · rw [← hfr.1]
    exact w2.core
  · rw [← hfr.2.1]
    exact w2.cells
  · rw [← hfr.2.1]
    exact w2.levLen
  · intro t ht
    exact TradeOK_heapEq hfr.1 (w3 t ht)
  · rw [← hfr.2.2.2.1, ← hfr.1]
    exact w4

/-- matchMarketOrder: same invariant bundle as matchLimitOrder. -/
theorem matchMarketOrder_WF {s : EngineState} (hwf : WF s) (order : Order) (staged : DB)
    (hst : StagedOK s.nextOrderID s.heap order staged) :
    WF (matchMarketOrder s order staged).1 ∧
    coreAgree s.heap (matchMarketOrder s order staged).1.heap ∧
    (matchMarketOrder s order staged).1.nextOrderID = s.nextOrderID ∧
    (∀ lid, ∀ oid ∈ (levelGet (matchMarketOrder s order staged).1.levels lid).ordersBacking,
      oid ∈ (levelGet s.levels lid).ordersBacking) ∧
    (matchMarketOrder s order staged).1.levels.length = s.levels.length ∧
    (∀ t ∈ (matchMarketOrder s order staged).2.1.trades, TradeOK s order t) ∧
    StagedOK s.nextOrderID s.heap order (matchMarketOrder s order staged).2.1.staged := by
  have hfr := sortOppositeSide_frame s order.side order.symbol
  have hwfB : WF (sortOppositeSide s order.side order.symbol) :=
    sortOppositeSide_WF hwf order.side order.symbol
  have hst2 : StagedOK (sortOppositeSide s order.side order.symbol).nextOrderID
      (sortOppositeSide s order.side order.symbol).heap order staged := by
    rw [hfr.2.2.2.1, hfr.1]
    exact hst
  have hl := matchLevelsLoopMarket_WF (sortOppositeSide s order.side order.symbol) hwfB order
    (getSide (ownSideMap (sortOppositeSide s order.side order.symbol) (oppSideOf order.side))
      order.symbol).levelsLen
    (getSide_len_le hwfB (oppSideOf order.side) order.symbol)
    (getSide (ownSideMap (sortOppositeSide s order.side order.symbol) (oppSideOf order.side))
      order.symbol).levelsLen
    (Nat.le_refl _)
    (sortOppositeSide s order.side order.symbol)
    { trades := [], remainingQty := order.remainingQuantity, staged := staged }
    hwfB (Descends_self _) (fun t ht => absurd ht (List.not_mem_nil t)) hst2
  obtain ⟨w1, w2, w3, w4⟩ := hl
  have hgoal :
      matchMarketOrder s order staged
        = matchLevelsLoopMarket order
          (getSide (ownSideMap (sortOppositeSide s order.side order.symbol)
            (oppSideOf order.side)) order.symbol).levelsLen
          (getSide (ownSideMap (sortOppositeSide s order.side order.symbol)
            (oppSideOf order.side)) order.symbol).levelsLen
          (sortOppositeSide s order.side order.symbol)
          { trades := [], remainingQty := order.remainingQuantity, staged := staged } := by
    simp only [matchMarketOrder]
    rw [oppRead (sortOppositeSide s order.side order.symbol) order]
  rw [hgoal]
  refine ⟨w1, ?_, w2.nextID.trans hfr.2.2.2.1, ?_, ?_, ?_, ?_⟩
  · rw [← hfr.1]
    exact w2.core
  · rw [← hfr.2.1]
    exact w2.cells
  · rw [← hfr.2.1]
    exact w2.levLen
  · intro t ht
    exact TradeOK_heapEq hfr.1 (w3 t ht)
  · rw [← hfr.2.2.2.1, ← hfr.1]
    exact w4

/-- Reading below the old length after appending a level. -/
theorem levelGet_append {levels : List Level} {L2 : Level} {lid : Nat}
    (h : lid < levels.length) :
    levelGet (levels ++ [L2]) lid = levelGet levels lid := by
  unfold levelGet List.getD
  rw [List.get?_eq_getElem?, List.get?_eq_getElem?, List.getElem?_append_left h]

/-- Reading the appended level. -/
theorem levelGet_append_self {levels : List Level} {L2 : Level} :
    levelGet (levels ++ [L2]) levels.length = L2 := by
  unfold levelGet List.getD
  rw [List.get?_eq_getElem?, List.getElem?_append_right (Nat.le_refl _)]
  simp

/-- An absent key is no entry's key. -/
theorem findSide_none_not_mem {m : List (String × SideLevels)} {sym : String}
    (h : findSide m sym = none) : sym ∉ m.map Prod.fst := by
  intro hmem
  obtain ⟨p, hp, hps⟩ := List.mem_map.mp hmem
  unfold findSide at h
  cases hf : m.find? (fun q => q.1 == sym) with
  | some q =>
    rw [hf] at h
    simp at h
  | none =>
    have h2 := List.find?_eq_none.mp hf p hp
    simp [hps] at h2

/-- A failed level scan means no scanned position carries the price. -/
theorem findLiveLevelIdx_none {levels : List Level} {sl : SideLevels} {price : Int}
    (h : findLiveLevelIdx levels sl price = none) :
    ∀ k < sl.levelsLen, (levelGet levels (cellGet sl.levelsBacking k)).price ≠ price := by
  intro k hk hpe
  unfold findLiveLevelIdx at h
  have h2 := List.find?_eq_none.mp h k (List.mem_range.mpr hk)
  simp [hpe] at h2

/-- A failed level scan means no live level carries the price. -/
theorem live_price_ne {levels : List Level} {sl : SideLevels} {price : Int}
    (hn : findLiveLevelIdx levels sl price = none) :
    ∀ lid2 ∈ liveCells sl.levelsBacking sl.levelsLen,
      (levelGet levels lid2).price ≠ price := by
  intro lid2 hl2
  obtain ⟨k, hk, hke⟩ := List.getElem_of_mem hl2
  unfold liveCells at hk hke
  rw [List.length_take] at hk
  have hk2 : k < sl.levelsLen := lt_of_lt_of_le hk (min_le_left _ _)
  have hk3 : k < sl.levelsBacking.length := lt_of_lt_of_le hk (min_le_right _ _)
  have h1 : cellGet sl.levelsBacking k = lid2 := by
    unfold cellGet
    rw [List.getD_eq_getElem _ _ hk3, ← hke]
    exact (List.getElem_take _).symm
  intro hpe
  exact findLiveLevelIdx_none hn k hk2 (by rw [h1]; exact hpe)

/-- LiveOK through getSide: a live slice is no longer than its backing. -/
theorem getSide_len_le2 {levels : List Level} {m : List (String × SideLevels)}
    (hl : LiveOK levels m) (sym : String) :
    (getSide m sym).levelsLen ≤ (getSide m sym).levelsBacking.length := by
  cases hfs : findSide m sym with
  | none =>
    rw [getSide_of_findSide_none hfs]
    exact Nat.le_refl 0
  | some sl =>
    rw [getSide_eq_of_findSide hfs]
    exact (hl (sym, sl) (findSide_mem hfs)).1

/-- SideOK through getSide: every cell of the slice read for a symbol
carries the SideOK facts for that symbol. -/
theorem getSide_cells_SideOK {heap : Nat → Option Order} {levels : List Level}
    {m : List (String × SideLevels)} {sd : Side}
    (hs : SideOK heap levels m sd) (sym : String) :
    ∀ lid ∈ (getSide m sym).levelsBacking, lid < levels.length ∧
      ∀ oid ∈ (levelGet levels lid).ordersBacking, ∃ o2 : Order,
        heap oid = some o2 ∧ o2.orderID = oid ∧ o2.symbol = sym ∧ o2.side = sd ∧
        o2.otype = OrderType.limit ∧ o2.price = ⟨(levelGet levels lid).price, true⟩ := by
  cases hfs : findSide m sym with
  | none =>
    rw [getSide_of_findSide_none hfs]
    intro lid h
    simp at h
  | some sl =>
    rw [getSide_eq_of_findSide hfs]
    exact hs (sym, sl) (findSide_mem hfs)

/-- LiveOK through getSide: live-level facts of the slice read for a
symbol. -/
theorem getSide_live {levels : List Level} {m : List (String × SideLevels)}
    (hl : LiveOK levels m) (sym : String) :
    ∀ lid ∈ liveCells (getSide m sym).levelsBacking (getSide m sym).levelsLen,
      (levelGet levels lid).ordersLen ≠ 0 ∧
      (levelGet levels lid).ordersLen ≤ (levelGet levels lid).ordersBacking.length ∧
      (liveCells (levelGet levels lid).ordersBacking (levelGet levels lid).ordersLen).Nodup := by
  cases hfs : findSide m sym with
  | none =>
    rw [getSide_of_findSide_none hfs]
    intro lid h
    simp [liveCells] at h
  | some sl =>
    rw [getSide_eq_of_findSide hfs]
    exact (hl (sym, sl) (findSide_mem hfs)).2.2

/-- LiveOK through getSide: the live level prices of the slice read for a
symbol are pairwise distinct. -/
theorem getSide_prices_nodup {levels : List Level} {m : List (String × SideLevels)}
    (hl : LiveOK levels m) (sym : String) :
    ((liveCells (getSide m sym).levelsBacking (getSide m sym).levelsLen).map
      (fun lid => (levelGet levels lid).price)).Nodup := by
  cases hfs : findSide m sym with
  | none =>
    rw [getSide_of_findSide_none hfs]
    simp [liveCells]
  | some sl =>
    rw [getSide_eq_of_findSide hfs]
    exact (hl (sym, sl) (findSide_mem hfs)).2.1

/-- SideOK of the own side after appending a fresh order to the level found
for its price. -/
theorem SideOK_add_own {heap : Nat → Option Order} {levels : List Level}
    {m : List (String × SideLevels)} {sd : Side}
    (hs : SideOK heap levels m sd) (hl : LiveOK levels m) {o : Order}
    (hheap : heap o.orderID = some o)
    (hsd : o.side = sd) (hlim : o.otype = OrderType.limit) (hval : o.price.valid = true)
    {sl0 : SideLevels} (hfs : findSide m o.symbol = some sl0)
    {i : Nat} (hfl : findLiveLevelIdx levels sl0 o.price.float64 = some i) :
    SideOK heap
      (levels.set (cellGet sl0.levelsBacking i)
        { price := (levelGet levels (cellGet sl0.levelsBacking i)).price,
          ordersBacking := (levelGet levels (cellGet sl0.levelsBacking i)).ordersBacking.take
              (levelGet levels (cellGet sl0.levelsBacking i)).ordersLen ++ [o.orderID],
          ordersLen := (levelGet levels (cellGet sl0.levelsBacking i)).ordersLen + 1 })
      m sd := by
  have hi : i < sl0.levelsLen := (findLiveLevelIdx_some hfl).1
  have hLp : (levelGet levels (cellGet sl0.levelsBacking i)).price = o.price.float64 :=
    (findLiveLevelIdx_some hfl).2
  have hmem0 : (o.symbol, sl0) ∈ m := findSide_mem hfs
  obtain ⟨hb1x, -, hb3⟩ := hl (o.symbol, sl0) hmem0
  have hb1 : sl0.levelsLen ≤ sl0.levelsBacking.length := hb1x
  have hliveL := cellGet_mem_live hi hb1
  obtain ⟨hLne, hLb, -⟩ := hb3 _ hliveL
  have hlidb : cellGet sl0.levelsBacking i ∈ sl0.levelsBacking := liveCells_subset _ hliveL
  have hoid0 : cellGet (levelGet levels (cellGet sl0.levelsBacking i)).ordersBacking 0
      ∈ (levelGet levels (cellGet sl0.levelsBacking i)).ordersBacking :=
    cellGet_mem (by omega)
  have hlt : cellGet sl0.levelsBacking i < levels.length := (hs _ hmem0 _ hlidb).1
  have hpr : o.price = ⟨(levelGet levels (cellGet sl0.levelsBacking i)).price, true⟩ := by
    cases hop : o.price with
    | mk f v =>
      rw [hop] at hval hLp
      have hv : v = true := hval
      have hf : (levelGet levels (cellGet sl0.levelsBacking i)).price = f := hLp
      rw [hf, hv]
  intro p hp lid2 hl2
  obtain ⟨hbd, hcells⟩ := hs p hp lid2 hl2
  refine ⟨by simpa using hbd, ?_⟩
  intro oid hoid
  by_cases he : lid2 = cellGet sl0.levelsBacking i
  · subst he
    rw [levelGet_set_self hlt] at hoid
    rw [levelGet_set_self hlt]
    rcases List.mem_append.mp hoid with h2 | h2
    · obtain ⟨w, w1, w2, w3, w4, w5, w6⟩ := hcells oid (List.mem_of_mem_take h2)
      exact ⟨w, w1, w2, w3, w4, w5, w6⟩
    · rw [List.mem_singleton.mp h2]
      have hkey := level_owner_unique hs hs hp hmem0 hl2 hlidb hoid0
      exact ⟨o, hheap, rfl, hkey.2.symm, hsd, hlim, hpr⟩
  · rw [levelGet_set_ne he] at hoid ⊢
    exact hcells oid hoid

/-- SideOK of the other side is untouched by the append: the mutated level
belongs to the own side. -/
theorem SideOK_add_oth {heap : Nat → Option Order} {levels : List Level}
    {m mx : List (String × SideLevels)} {sd sdx : Side}
    (hs : SideOK heap levels m sd) (hl : LiveOK levels m)
    (hsx : SideOK heap levels mx sdx) (hne : sd ≠ sdx) {o : Order}
    {sl0 : SideLevels} (hfs : findSide m o.symbol = some sl0)
    {i : Nat} (hfl : findLiveLevelIdx levels sl0 o.price.float64 = some i)
    {L2 : Level} :
    SideOK heap (levels.set (cellGet sl0.levelsBacking i) L2) mx sdx := by
  have hi : i < sl0.levelsLen := (findLiveLevelIdx_some hfl).1
  have hmem0 : (o.symbol, sl0) ∈ m := findSide_mem hfs
  obtain ⟨hb1x, -, hb3⟩ := hl (o.symbol, sl0) hmem0
  have hb1 : sl0.levelsLen ≤ sl0.levelsBacking.length := hb1x
  have hliveL := cellGet_mem_live hi hb1
  obtain ⟨hLne, hLb, -⟩ := hb3 _ hliveL
  have hlidb : cellGet sl0.levelsBacking i ∈ sl0.levelsBacking := liveCells_subset _ hliveL
  have hoid0 : cellGet (levelGet levels (cellGet sl0.levelsBacking i)).ordersBacking 0
      ∈ (levelGet levels (cellGet sl0.levelsBacking i)).ordersBacking :=
    cellGet_mem (by omega)
  intro p hp lid2 hl2
  obtain ⟨hbd, hcells⟩ := hsx p hp lid2 hl2
  refine ⟨by simpa using hbd, ?_⟩
  by_cases he : lid2 = cellGet sl0.levelsBacking i
  · exfalso
    subst he
    have hcross := level_owner_unique hs hsx hmem0 hp hlidb hl2 hoid0
    exact hne hcross.1
  · rw [levelGet_set_ne he]
    exact hcells

/-- LiveOK of any side map after appending a fresh order to the level found
for its price. -/
theorem LiveOK_add {levels : List Level} {m2 : List (String × SideLevels)}
    (hlx : LiveOK levels m2)
    {m : List (String × SideLevels)} (hl : LiveOK levels m) {o : Order}
    {sl0 : SideLevels} (hfs : findSide m o.symbol = some sl0)
    {i : Nat} (hfl : findLiveLevelIdx levels sl0 o.price.float64 = some i)
    (hlt : cellGet sl0.levelsBacking i < levels.length)
    (hfresh : o.orderID ∉ (levelGet levels (cellGet sl0.levelsBacking i)).ordersBacking) :
    LiveOK
      (levels.set (cellGet sl0.levelsBacking i)
        { price := (levelGet levels (cellGet sl0.levelsBacking i)).price,
          ordersBacking := (levelGet levels (cellGet sl0.levelsBacking i)).ordersBacking.take
              (levelGet levels (cellGet sl0.levelsBacking i)).ordersLen ++ [o.orderID],
          ordersLen := (levelGet levels (cellGet sl0.levelsBacking i)).ordersLen + 1 })
      m2 := by
  have hi : i < sl0.levelsLen := (findLiveLevelIdx_some hfl).1
  have hmem0 : (o.symbol, sl0) ∈ m := findSide_mem hfs
  obtain ⟨hb1x, -, hb3⟩ := hl (o.symbol, sl0) hmem0
  have hb1 : sl0.levelsLen ≤ sl0.levelsBacking.length := hb1x
  have hliveL := cellGet_mem_live hi hb1
  obtain ⟨hLne, hLb, hLnd⟩ := hb3 _ hliveL
  have hpp : ({
      price := (levelGet levels (cellGet sl0.levelsBacking i)).price,
      ordersBacking := (levelGet levels (cellGet sl0.levelsBacking i)).ordersBacking.take
          (levelGet levels (cellGet sl0.levelsBacking i)).ordersLen ++ [o.orderID],
      ordersLen := (levelGet levels (cellGet sl0.levelsBacking i)).ordersLen + 1 } : Level).price
      = (levelGet levels (cellGet sl0.levelsBacking i)).price := rfl
  intro p hp
  obtain ⟨c1, c2, c3⟩ := hlx p hp
  refine ⟨c1, ?_, ?_⟩
  · have hmape : ((liveCells p.2.levelsBacking p.2.levelsLen).map
        (fun lid2 => (levelGet (levels.set (cellGet sl0.levelsBacking i)
          { price := (levelGet levels (cellGet sl0.levelsBacking i)).price,
            ordersBacking := (levelGet levels (cellGet sl0.levelsBacking i)).ordersBacking.take
                (levelGet levels (cellGet sl0.levelsBacking i)).ordersLen ++ [o.orderID],
            ordersLen := (levelGet levels (cellGet sl0.levelsBacking i)).ordersLen + 1 })
          lid2).price))
        = ((liveCells p.2.levelsBacking p.2.levelsLen).map
          (fun lid2 => (levelGet levels lid2).price)) :=
      List.map_congr_left (fun lid2 _ => levelGet_set_price hpp lid2)
    rw [hmape]
    exact c2
  · intro lid2 hl2m
    by_cases he : lid2 = cellGet sl0.levelsBacking i
    · subst he
      rw [levelGet_set_self hlt]
      refine ⟨Nat.succ_ne_zero _, ?_, ?_⟩
      · simp only [List.length_append, List.length_take, List.length_cons, List.length_nil]
        omega
      · have hlen2 : ((levelGet levels (cellGet sl0.levelsBacking i)).ordersBacking.take
            (levelGet levels (cellGet sl0.levelsBacking i)).ordersLen ++ [o.orderID]).length
            ≤ (levelGet levels (cellGet sl0.levelsBacking i)).ordersLen + 1 := by
          simp only [List.length_append, List.length_take, List.length_cons, List.length_nil]
          omega
        unfold liveCells
        rw [List.take_of_length_le hlen2]
        rw [List.nodup_append]
        refine ⟨hLnd, List.nodup_singleton _, ?_⟩
        intro a ha hb
        rw [List.mem_singleton.mp hb] at ha
        exact hfresh (List.mem_of_mem_take ha)
    · rw [levelGet_set_ne he]
      exact c3 lid2 hl2m

/-- The price of a fresh order as a NullFloat64 value. -/
theorem price_eta {o : Order} (hval : o.price.valid = true) {x : Int}
    (hx : x = o.price.float64) : o.price = ⟨x, true⟩ := by
  cases hop : o.price with
  | mk f v =>
    rw [hop] at hval
    have hv : v = true := hval
    have hf : x = f := by rw [hx, hop]
    rw [hv, hf]

/-- addToOrderBook on the ask side when a level with the price exists. -/
theorem add_found_WF_asks {s : EngineState} (hwf : WF s) {o : Order}
    (hheap : s.heap o.orderID = some o) (hid : o.orderID < s.nextOrderID)
    (hfresh : ∀ L ∈ s.levels, o.orderID ∉ L.ordersBacking)
    (hside : o.side = Side.sell) (hlim : o.otype = OrderType.limit)
    (hval : o.price.valid = true)
    {i : Nat}
    (hfl : findLiveLevelIdx s.levels (getSide s.asks o.symbol) o.price.float64 = some i) :
    WF { s with
      levels := s.levels.set (cellGet (getSide s.asks o.symbol).levelsBacking i)
        { price := (levelGet s.levels
            (cellGet (getSide s.asks o.symbol).levelsBacking i)).price,
          ordersBacking := (levelGet s.levels
              (cellGet (getSide s.asks o.symbol).levelsBacking i)).ordersBacking.take
              (levelGet s.levels (cellGet (getSide s.asks o.symbol).levelsBacking i)).ordersLen
            ++ [o.orderID],
          ordersLen := (levelGet s.levels
            (cellGet (getSide s.asks o.symbol).levelsBacking i)).ordersLen + 1 },
      asks := setSide s.asks o.symbol (getSide s.asks o.symbol) } := by
  cases hfs : findSide s.asks o.symbol with
  | none =>
    exfalso
    have hi := (findLiveLevelIdx_some hfl).1
    rw [getSide_of_findSide_none hfs] at hi
    simp at hi
  | some sl0 =>
    rw [getSide_eq_of_findSide hfs] at hfl ⊢
    rw [setSide_findSide_self hfs]
    have hi : i < sl0.levelsLen := (findLiveLevelIdx_some hfl).1
    have hmem0 : (o.symbol, sl0) ∈ s.asks := findSide_mem hfs
    obtain ⟨hb1x, -, hb3⟩ := hwf.asksLive (o.symbol, sl0) hmem0
    have hb1 : sl0.levelsLen ≤ sl0.levelsBacking.length := hb1x
    have hliveL := cellGet_mem_live hi hb1
    obtain ⟨hLne, hLb, -⟩ := hb3 _ hliveL
    have hlidb : cellGet sl0.levelsBacking i ∈ sl0.levelsBacking := liveCells_subset _ hliveL
    have hlt : cellGet sl0.levelsBacking i < s.levels.length :=
      (hwf.asksOK _ hmem0 _ hlidb).1
    have hLmem := levelGet_mem hlt
    refine
      { heapKey := hwf.heapKey
        cellBound := ?_
        levelsBound := ?_
        bidsOK := SideOK_add_oth hwf.asksOK hwf.asksLive hwf.bidsOK
          (fun h => Side.noConfusion h) hfs hfl
        asksOK := SideOK_add_own hwf.asksOK hwf.asksLive hheap hside hlim hval hfs hfl
        bidsKeys := hwf.bidsKeys
        asksKeys := hwf.asksKeys
        bidsLive := LiveOK_add hwf.bidsLive hwf.asksLive hfs hfl hlt (hfresh _ hLmem)
        asksLive := LiveOK_add hwf.asksLive hwf.asksLive hfs hfl hlt (hfresh _ hLmem)
        dbIDs := hwf.dbIDs
        dbHeap := hwf.dbHeap
        dbMarket := hwf.dbMarket }
    · intro L2 hL2 oid hoid
      rcases List.mem_or_eq_of_mem_set hL2 with h | h
      · exact hwf.cellBound L2 h oid hoid
      · subst h
        rcases List.mem_append.mp hoid with h2 | h2
        · exact hwf.cellBound _ hLmem oid (List.mem_of_mem_take h2)
        · rw [List.mem_singleton.mp h2]
          exact hid
    · intro L2 hL2
      rcases List.mem_or_eq_of_mem_set hL2 with h | h
      · exact hwf.levelsBound L2 h
      · subst h
        simp only [List.length_append, List.length_take, List.length_cons, List.length_nil]
        omega

/-- addToOrderBook on the bid side when a level with the price exists. -/
theorem add_found_WF_bids {s : EngineState} (hwf : WF s) {o : Order}
    (hheap : s.heap o.orderID = some o) (hid : o.orderID < s.nextOrderID)
    (hfresh : ∀ L ∈ s.levels, o.orderID ∉ L.ordersBacking)
    (hside : o.side = Side.buy) (hlim : o.otype = OrderType.limit)
    (hval : o.price.valid = true)
    {i : Nat}
    (hfl : findLiveLevelIdx s.levels (getSide s.bids o.symbol) o.price.float64 = some i) :
    WF { s with
      levels := s.levels.set (cellGet (getSide s.bids o.symbol).levelsBacking i)
        { price := (levelGet s.levels
            (cellGet (getSide s.bids o.symbol).levelsBacking i)).price,
          ordersBacking := (levelGet s.levels
              (cellGet (getSide s.bids o.symbol).levelsBacking i)).ordersBacking.take
              (levelGet s.levels (cellGet (getSide s.bids o.symbol).levelsBacking i)).ordersLen
            ++ [o.orderID],
          ordersLen := (levelGet s.levels
            (cellGet (getSide s.bids o.symbol).levelsBacking i)).ordersLen + 1 },
      bids := setSide s.bids o.symbol (getSide s.bids o.symbol) } := by
  cases hfs : findSide s.bids o.symbol with
  | none =>
    exfalso
    have hi := (findLiveLevelIdx_some hfl).1
    rw [getSide_of_findSide_none hfs] at hi
    simp at hi
  | some sl0 =>
    rw [getSide_eq_of_findSide hfs] at hfl ⊢
    rw [setSide_findSide_self hfs]
    have hi : i < sl0.levelsLen := (findLiveLevelIdx_some hfl).1
    have hmem0 : (o.symbol, sl0) ∈ s.bids := findSide_mem hfs
    obtain ⟨hb1x, -, hb3⟩ := hwf.bidsLive (o.symbol, sl0) hmem0
    have hb1 : sl0.levelsLen ≤ sl0.levelsBacking.length := hb1x
    have hliveL := cellGet_mem_live hi hb1
    obtain ⟨hLne, hLb, -⟩ := hb3 _ hliveL
    have hlidb : cellGet sl0.levelsBacking i ∈ sl0.levelsBacking := liveCells_subset _ hliveL
    have hlt : cellGet sl0.levelsBacking i < s.levels.length :=
      (hwf.bidsOK _ hmem0 _ hlidb).1
    have hLmem := levelGet_mem hlt
    refine
      { heapKey := hwf.heapKey
        cellBound := ?_
        levelsBound := ?_
        bidsOK := SideOK_add_own hwf.bidsOK hwf.bidsLive hheap hside hlim hval hfs hfl
        asksOK := SideOK_add_oth hwf.bidsOK hwf.bidsLive hwf.asksOK
          (fun h => Side.noConfusion h) hfs hfl
        bidsKeys := hwf.bidsKeys
        asksKeys := hwf.asksKeys
        bidsLive := LiveOK_add hwf.bidsLive hwf.bidsLive hfs hfl hlt (hfresh _ hLmem)
        asksLive := LiveOK_add hwf.asksLive hwf.bidsLive hfs hfl hlt (hfresh _ hLmem)
        dbIDs := hwf.dbIDs
        dbHeap := hwf.dbHeap
        dbMarket := hwf.dbMarket }
    · intro L2 hL2 oid hoid
      rcases List.mem_or_eq_of_mem_set hL2 with h | h
      · exact hwf.cellBound L2 h oid hoid
      · subst h
        rcases List.mem_append.mp hoid with h2 | h2
        · exact hwf.cellBound _ hLmem oid (List.mem_of_mem_take h2)
        · rw [List.mem_singleton.mp h2]
          exact hid
    · intro L2 hL2
      rcases List.mem_or_eq_of_mem_set hL2 with h | h
      · exact hwf.levelsBound L2 h
      · subst h
        simp only [List.length_append, List.length_take, List.length_cons, List.length_nil]
        omega

/-- addToOrderBook on the ask side when no live level carries the price:
a fresh level is appended and its id pushed onto the side slice. -/
theorem add_fresh_WF_asks {s : EngineState} (hwf : WF s) {o : Order}
    (hheap : s.heap o.orderID = some o) (hid : o.orderID < s.nextOrderID)
    (hside : o.side = Side.sell) (hlim : o.otype = OrderType.limit)
    (hval : o.price.valid = true)
    (hfl : findLiveLevelIdx s.levels (getSide s.asks o.symbol) o.price.float64 = none) :
    WF { s with
      levels := s.levels ++
        [{ price := o.price.float64, ordersBacking := [o.orderID], ordersLen := 1 }],
      asks := setSide s.asks o.symbol
        { levelsBacking := (getSide s.asks o.symbol).levelsBacking.take
            (getSide s.asks o.symbol).levelsLen ++ [s.levels.length],
          levelsLen := (getSide s.asks o.symbol).levelsLen + 1 } } := by
  have hsb : (getSide s.asks o.symbol).levelsLen
      ≤ (getSide s.asks o.symbol).levelsBacking.length := getSide_len_le2 hwf.asksLive o.symbol
  have hcellsOK := getSide_cells_SideOK hwf.asksOK o.symbol
  have hliveOK := getSide_live hwf.asksLive o.symbol
  have hprN := getSide_prices_nodup hwf.asksLive o.symbol
  have hpne := live_price_ne hfl
  have hlive' : liveCells ((getSide s.asks o.symbol).levelsBacking.take
        (getSide s.asks o.symbol).levelsLen ++ [s.levels.length])
      ((getSide s.asks o.symbol).levelsLen + 1)
      = (getSide s.asks o.symbol).levelsBacking.take (getSide s.asks o.symbol).levelsLen
        ++ [s.levels.length] := by
    unfold liveCells
    refine List.take_of_length_le ?_
    simp only [List.length_append, List.length_take, List.length_cons, List.length_nil]
    omega
  refine
    { heapKey := hwf.heapKey
      cellBound := ?_
      levelsBound := ?_
      bidsOK := ?_
      asksOK := ?_
      bidsKeys := hwf.bidsKeys
      asksKeys := ?_
      bidsLive := ?_
      asksLive := ?_
      dbIDs := hwf.dbIDs
      dbHeap := hwf.dbHeap
      dbMarket := hwf.dbMarket }
  · intro L2 hL2 oid hoid
    rcases List.mem_append.mp hL2 with h | h
    · exact hwf.cellBound L2 h oid hoid
    · rw [List.mem_singleton.mp h] at hoid
      have ho2 : oid = o.orderID := List.mem_singleton.mp hoid
      rw [ho2]
      exact hid
  · intro L2 hL2
    rcases List.mem_append.mp hL2 with h | h
    · exact hwf.levelsBound L2 h
    · rw [List.mem_singleton.mp h]
      exact Nat.le_refl 1
  · intro p hp lid2 hl2
    obtain ⟨hbd, hcells⟩ := hwf.bidsOK p hp lid2 hl2
    refine ⟨by simp only [List.length_append, List.length_cons, List.length_nil]; omega, ?_⟩
    rw [levelGet_append hbd]
    exact hcells
  · intro p hp lid2 hl2
    rcases mem_setSide p hp with hpe | hpm
    · subst hpe
      rcases List.mem_append.mp hl2 with h | h
      · obtain ⟨hbd, hcells⟩ := hcellsOK lid2 (List.mem_of_mem_take h)
        refine ⟨by simp only [List.length_append, List.length_cons, List.length_nil]; omega,
          ?_⟩
        rw [levelGet_append hbd]
        exact hcells
      · rw [List.mem_singleton.mp h]
        refine ⟨by simp only [List.length_append, List.length_cons, List.length_nil]; omega,
          ?_⟩
        rw [levelGet_append_self]
        intro oid hoid
        have ho2 : oid = o.orderID := List.mem_singleton.mp hoid
        rw [ho2]
        exact ⟨o, hheap, rfl, rfl, hside, hlim, price_eta hval rfl⟩
    · obtain ⟨hbd, hcells⟩ := hwf.asksOK p hpm lid2 hl2
      refine ⟨by simp only [List.length_append, List.length_cons, List.length_nil]; omega, ?_⟩
      rw [levelGet_append hbd]
      exact hcells
  · rcases keys_setSide s.asks o.symbol
      { levelsBacking := (getSide s.asks o.symbol).levelsBacking.take
          (getSide s.asks o.symbol).levelsLen ++ [s.levels.length],
        levelsLen := (getSide s.asks o.symbol).levelsLen + 1 } with h | ⟨h, hn⟩
    · rw [h]
      exact hwf.asksKeys
    · rw [h, List.nodup_append]
      refine ⟨hwf.asksKeys, List.nodup_singleton _, ?_⟩
      intro a ha hb
      rw [List.mem_singleton.mp hb] at ha
      exact findSide_none_not_mem hn ha
  · intro p hp
    obtain ⟨c1, c2, c3⟩ := hwf.bidsLive p hp
    refine ⟨c1, ?_, ?_⟩
    · have hmap2 : ((liveCells p.2.levelsBacking p.2.levelsLen).map
          (fun lid2 => (levelGet (s.levels ++
            [{ price := o.price.float64, ordersBacking := [o.orderID], ordersLen := 1 }])
            lid2).price))
          = ((liveCells p.2.levelsBacking p.2.levelsLen).map
            (fun lid2 => (levelGet s.levels lid2).price)) :=
        List.map_congr_left (fun lid2 h => by
          rw [levelGet_append (hwf.bidsOK p hp lid2 (liveCells_subset _ h)).1])
      rw [hmap2]
      exact c2
    · intro lid2 hl2m
      rw [levelGet_append (hwf.bidsOK p hp lid2 (liveCells_subset _ hl2m)).1]
      exact c3 lid2 hl2m
  · intro p hp
    rcases mem_setSide p hp with hpe | hpm
    · subst hpe
      dsimp only
      refine ⟨?_, ?_, ?_⟩
      · simp only [List.length_append, List.length_take, List.length_cons, List.length_nil]
        omega
      · rw [hlive', List.map_append, List.map_cons, List.map_nil, levelGet_append_self]
        have hmap1 : (((getSide s.asks o.symbol).levelsBacking.take
            (getSide s.asks o.symbol).levelsLen).map
            (fun lid2 => (levelGet (s.levels ++
              [{ price := o.price.float64, ordersBacking := [o.orderID], ordersLen := 1 }])
              lid2).price))
            = (((getSide s.asks o.symbol).levelsBacking.take
              (getSide s.asks o.symbol).levelsLen).map
              (fun lid2 => (levelGet s.levels lid2).price)) :=
          List.map_congr_left (fun lid2 h => by
            rw [levelGet_append (hcellsOK lid2 (List.mem_of_mem_take h)).1])
        rw [hmap1, List.nodup_append]
        refine ⟨hprN, List.nodup_singleton _, ?_⟩
        intro a ha hb
        rw [List.mem_singleton.mp hb] at ha
        obtain ⟨lid2, hl2, he⟩ := List.mem_map.mp ha
        exact hpne lid2 hl2 he
      · intro lid2 hl2m
        rw [hlive'] at hl2m
        rcases List.mem_append.mp hl2m with h | h
        · rw [levelGet_append (hcellsOK lid2 (List.mem_of_mem_take h)).1]
          exact hliveOK lid2 h
        · rw [List.mem_singleton.mp h, levelGet_append_self]
          refine ⟨Nat.one_ne_zero, Nat.le_refl 1, ?_⟩
          simp [liveCells]
    · obtain ⟨c1, c2, c3⟩ := hwf.asksLive p hpm
      refine ⟨c1, ?_, ?_⟩
      · have hmap2 : ((liveCells p.2.levelsBacking p.2.levelsLen).map
            (fun lid2 => (levelGet (s.levels ++
              [{ price := o.price.float64, ordersBacking := [o.orderID], ordersLen := 1 }])
              lid2).price))
            = ((liveCells p.2.levelsBacking p.2.levelsLen).map
              (fun lid2 => (levelGet s.levels lid2).price)) :=
          List.map_congr_left (fun lid2 h => by
            rw [levelGet_append (hwf.asksOK p hpm lid2 (liveCells_subset _ h)).1])
        rw [hmap2]
        exact c2
      · intro lid2 hl2m
        rw [levelGet_append (hwf.asksOK p hpm lid2 (liveCells_subset _ hl2m)).1]
        exact c3 lid2 hl2m

/-- addToOrderBook on the bid side when no live level carries the price. -/
theorem add_fresh_WF_bids {s : EngineState} (hwf : WF s) {o : Order}
    (hheap : s.heap o.orderID = some o) (hid : o.orderID < s.nextOrderID)
    (hside : o.side = Side.buy) (hlim : o.otype = OrderType.limit)
    (hval : o.price.valid = true)
    (hfl : findLiveLevelIdx s.levels (getSide s.bids o.symbol) o.price.float64 = none) :
    WF { s with
      levels := s.levels ++
        [{ price := o.price.float64, ordersBacking := [o.orderID], ordersLen := 1 }],
      bids := setSide s.bids o.symbol
        { levelsBacking := (getSide s.bids o.symbol).levelsBacking.take
            (getSide s.bids o.symbol).levelsLen ++ [s.levels.length],
          levelsLen := (getSide s.bids o.symbol).levelsLen + 1 } } := by
  have hsb : (getSide s.bids o.symbol).levelsLen
      ≤ (getSide s.bids o.symbol).levelsBacking.length := getSide_len_le2 hwf.bidsLive o.symbol
  have hcellsOK := getSide_cells_SideOK hwf.bidsOK o.symbol
  have hliveOK := getSide_live hwf.bidsLive o.symbol
  have hprN := getSide_prices_nodup hwf.bidsLive o.symbol
  have hpne := live_price_ne hfl
  have hlive' : liveCells ((getSide s.bids o.symbol).levelsBacking.take
        (getSide s.bids o.symbol).levelsLen ++ [s.levels.length])
      ((getSide s.bids o.symbol).levelsLen + 1)
      = (getSide s.bids o.symbol).levelsBacking.take (getSide s.bids o.symbol).levelsLen
        ++ [s.levels.length] := by
    unfold liveCells
    refine List.take_of_length_le ?_
    simp only [List.length_append, List.length_take, List.length_cons, List.length_nil]
    omega
  refine
    { heapKey := hwf.heapKey
      cellBound := ?_
      levelsBound := ?_
      asksOK := ?_
      bidsOK := ?_
      asksKeys := hwf.asksKeys
      bidsKeys := ?_
      asksLive := ?_
      bidsLive := ?_
      dbIDs := hwf.dbIDs
      dbHeap := hwf.dbHeap
      dbMarket := hwf.dbMarket }
  · intro L2 hL2 oid hoid
    rcases List.mem_append.mp hL2 with h | h
    · exact hwf.cellBound L2 h oid hoid
    · rw [List.mem_singleton.mp h] at hoid
      have ho2 : oid = o.orderID := List.mem_singleton.mp hoid
      rw [ho2]
      exact hid
  · intro L2 hL2
    rcases List.mem_append.mp hL2 with h | h
    · exact hwf.levelsBound L2 h
    · rw [List.mem_singleton.mp h]
      exact Nat.le_refl 1
  · intro p hp lid2 hl2
    rcases mem_setSide p hp with hpe | hpm
    · subst hpe
      rcases List.mem_append.mp hl2 with h | h
      · obtain ⟨hbd, hcells⟩ := hcellsOK lid2 (List.mem_of_mem_take h)
        refine ⟨by simp only [List.length_append, List.length_cons, List.length_nil]; omega,
          ?_⟩
        rw [levelGet_append hbd]
        exact hcells
      · rw [List.mem_singleton.mp h]
        refine ⟨by simp only [List.length_append, List.length_cons, List.length_nil]; omega,
          ?_⟩
        rw [levelGet_append_self]
        intro oid hoid
        have ho2 : oid = o.orderID := List.mem_singleton.mp hoid
        rw [ho2]
        exact ⟨o, hheap, rfl, rfl, hside, hlim, price_eta hval rfl⟩
    · obtain ⟨hbd, hcells⟩ := hwf.bidsOK p hpm lid2 hl2
      refine ⟨by simp only [List.length_append, List.length_cons, List.length_nil]; omega, ?_⟩
      rw [levelGet_append hbd]
      exact hcells
  · intro p hp lid2 hl2
    obtain ⟨hbd, hcells⟩ := hwf.asksOK p hp lid2 hl2
    refine ⟨by simp only [List.length_append, List.length_cons, List.length_nil]; omega, ?_⟩
    rw [levelGet_append hbd]
    exact hcells
  · rcases keys_setSide s.bids o.symbol
      { levelsBacking := (getSide s.bids o.symbol).levelsBacking.take
          (getSide s.bids o.symbol).levelsLen ++ [s.levels.length],
        levelsLen := (getSide s.bids o.symbol).levelsLen + 1 } with h | ⟨h, hn⟩
    · rw [h]
      exact hwf.bidsKeys
    · rw [h, List.nodup_append]
      refine ⟨hwf.bidsKeys, List.nodup_singleton _, ?_⟩
      intro a ha hb
      rw [List.mem_singleton.mp hb] at ha
      exact findSide_none_not_mem hn ha
  · intro p hp
    rcases mem_setSide p hp with hpe | hpm
    · subst hpe
      dsimp only
      refine ⟨?_, ?_, ?_⟩
      · simp only [List.length_append, List.length_take, List.length_cons, List.length_nil]
        omega
      · rw [hlive', List.map_append, List.map_cons, List.map_nil, levelGet_append_self]
        have hmap1 : (((getSide s.bids o.symbol).levelsBacking.take
            (getSide s.bids o.symbol).levelsLen).map
            (fun lid2 => (levelGet (s.levels ++
              [{ price := o.price.float64, ordersBacking := [o.orderID], ordersLen := 1 }])
              lid2).price))
            = (((getSide s.bids o.symbol).levelsBacking.take
              (getSide s.bids o.symbol).levelsLen).map
              (fun lid2 => (levelGet s.levels lid2).price)) :=
          List.map_congr_left (fun lid2 h => by
            rw [levelGet_append (hcellsOK lid2 (List.mem_of_mem_take h)).1])
        rw [hmap1, List.nodup_append]
        refine ⟨hprN, List.nodup_singleton _, ?_⟩
        intro a ha hb
        rw [List.mem_singleton.mp hb] at ha
        obtain ⟨lid2, hl2, he⟩ := List.mem_map.mp ha
        exact hpne lid2 hl2 he
      · intro lid2 hl2m
        rw [hlive'] at hl2m
        rcases List.mem_append.mp hl2m with h | h
        · rw [levelGet_append (hcellsOK lid2 (List.mem_of_mem_take h)).1]
          exact hliveOK lid2 h
        · rw [List.mem_singleton.mp h, levelGet_append_self]
          refine ⟨Nat.one_ne_zero, Nat.le_refl 1, ?_⟩
          simp [liveCells]
    · obtain ⟨c1, c2, c3⟩ := hwf.bidsLive p hpm
      refine ⟨c1, ?_, ?_⟩
      · have hmap2 : ((liveCells p.2.levelsBacking p.2.levelsLen).map
            (fun lid2 => (levelGet (s.levels ++
              [{ price := o.price.float64, ordersBacking := [o.orderID], ordersLen := 1 }])
              lid2).price))
            = ((liveCells p.2.levelsBacking p.2.levelsLen).map
              (fun lid2 => (levelGet s.levels lid2).price)) :=
          List.map_congr_left (fun lid2 h => by
            rw [levelGet_append (hwf.bidsOK p hpm lid2 (liveCells_subset _ h)).1])
        rw [hmap2]
        exact c2
      · intro lid2 hl2m
        rw [levelGet_append (hwf.bidsOK p hpm lid2 (liveCells_subset _ hl2m)).1]
        exact c3 lid2 hl2m

  · intro p hp
    obtain ⟨c1, c2, c3⟩ := hwf.asksLive p hp
    refine ⟨c1, ?_, ?_⟩
    · have hmap2 : ((liveCells p.2.levelsBacking p.2.levelsLen).map
          (fun lid2 => (levelGet (s.levels ++
            [{ price := o.price.float64, ordersBacking := [o.orderID], ordersLen := 1 }])
            lid2).price))
          = ((liveCells p.2.levelsBacking p.2.levelsLen).map
            (fun lid2 => (levelGet s.levels lid2).price)) :=
        List.map_congr_left (fun lid2 h => by
          rw [levelGet_append (hwf.asksOK p hp lid2 (liveCells_subset _ h)).1])
      rw [hmap2]
      exact c2
    · intro lid2 hl2m
      rw [levelGet_append (hwf.asksOK p hp lid2 (liveCells_subset _ hl2m)).1]
      exact c3 lid2 hl2m

/-- addToOrderBook preserves WF for a fresh open limit order already written
to the heap. -/
theorem addToOrderBook_WF {s : EngineState} (hwf : WF s) {o : Order}
    (hheap : s.heap o.orderID = some o) (hid : o.orderID < s.nextOrderID)
    (hfresh : ∀ L ∈ s.levels, o.orderID ∉ L.ordersBacking)
    (hlim : o.otype = OrderType.limit) (hval : o.price.valid = true) :
    WF (addToOrderBook s o) := by
  simp only [addToOrderBook]
  by_cases hAsk : (o.side == Side.sell) = true
  · simp only [if_pos hAsk]
    split
    next i hfl =>
      exact add_found_WF_asks hwf hheap hid hfresh (by simpa using hAsk) hlim hval hfl
    next hfl =>
      exact add_fresh_WF_asks hwf hheap hid (by simpa using hAsk) hlim hval hfl
  · have hbuy : o.side = Side.buy := by
      cases h : o.side with
      | buy => rfl
      | sell => rw [h] at hAsk; simp at hAsk
    simp only [if_neg hAsk]
    split
    next i hfl =>
      exact add_found_WF_bids hwf hheap hid hfresh hbuy hlim hval hfl
    next hfl =>
      exact add_fresh_WF_bids hwf hheap hid hbuy hlim hval hfl

end OMS
